import Mathlib

/-!
Verification of the FATE viewport layout tree (src/game/src/viewport.rs) and
the asynchronous asset streaming pump (src/game/src/gameplay.rs).

The Rust `HashMap<ViewportNodeID, ViewportNode>` is embedded as an
association list with nodup keys (`AList`), observed only through `lookup`,
`insert` and `erase`, which matches the hash map's observable behaviour.
`u32` quantities are naturals; arithmetic that can overflow in Rust is made
explicit with `% 4294967296`.  Rust panics (`unwrap`, `panic!`,
`unimplemented!`) are modelled by operations returning `Option`, with `none`
meaning the program trapped.
-/

/-- Modelled from the spec: vek's `Rgba<f32>` color (the vek crate's own
sources are not part of the excerpt).  Components are rationals standing in
for the `f32` values; no claim performs float arithmetic on them, they are
only stored and copied. -/
structure Rgba where
  r : ℚ
  g : ℚ
  b : ℚ
  a : ℚ
  deriving DecidableEq, Repr

/-- Modelled from the spec: vek's `Rgba::grey(v)` (all color channels `v`,
alpha opaque). -/
def Rgba.grey (v : ℚ) : Rgba := ⟨v, v, v, 1⟩

/-- Modelled from the spec: `Rgba::<u8>::new_opaque(r, g, b).map(|x| x as f32 / 255.)`
as used in `ViewportDB::split` for the freshly randomized child color.  The three
random bytes are inputs. -/
def Rgba.new_opaque_mapped (rr rg rb : ℕ) : Rgba :=
  ⟨(rr : ℚ) / 255, (rg : ℚ) / 255, (rb : ℚ) / 255, (255 : ℚ) / 255⟩

/-- `ViewportInfo` from viewport.rs: what a leaf viewport displays. -/
structure ViewportInfo where
  clear_color : Rgba
  deriving DecidableEq, Repr

/-- Modelled from the spec: `ViewportInfo::default()` (derived `Default`,
all-zero color). -/
def ViewportInfo.default : ViewportInfo := ⟨⟨0, 0, 0, 0⟩⟩

inductive SplitOrigin where
  | LeftOrBottom
  | Middle
  | RightOrTop
  deriving DecidableEq, Repr

inductive SplitUnit where
  | Ratio
  | Px
  deriving DecidableEq, Repr

inductive SplitDirection where
  | Horizontal
  | Vertical
  deriving DecidableEq, Repr

/-- `Split` from viewport.rs (the split specification stored in a Split node). -/
structure Split where
  origin : SplitOrigin
  unit : SplitUnit
  value : ℚ
  direction : SplitDirection
  deriving DecidableEq, Repr

/-- `ViewportNode` from viewport.rs.  Node IDs (`ViewportNodeID(u32)`) are
naturals. -/
inductive ViewportNode where
  | Whole (parent : Option ℕ) (info : ViewportInfo)
  | Split (parent : Option ℕ) (split : Split) (children : ℕ × ℕ)
  deriving DecidableEq, Repr

/-- `ViewportNode::default()`: a parentless Whole node with default info. -/
def ViewportNode.default : ViewportNode := .Whole none ViewportInfo.default

/-- The parent field of a node, uniform over both variants. -/
def ViewportNode.parent : ViewportNode → Option ℕ
  | .Whole p _ => p
  | .Split p _ _ => p

/-- The node map: embeds `HashMap<ViewportNodeID, ViewportNode>`. -/
abbrev NodeMap := AList (fun _ : ℕ => ViewportNode)

/-- `ViewportDB` from viewport.rs. -/
structure ViewportDB where
  border_color : Rgba
  border_px : ℕ
  highest_id : ℕ
  root : ℕ
  focused : ℕ
  hovered : Option ℕ
  nodes : NodeMap

/-- `ViewportDB::new()`: a single default Leaf with ID 0 as the root. -/
def ViewportDB.new : ViewportDB :=
  { nodes := AList.insert 0 ViewportNode.default ∅
    highest_id := 0
    root := 0
    focused := 0
    hovered := none
    border_px := 1
    border_color := Rgba.grey (96 / 100) }

/-- `ViewportDB::focus`: a direct setter. -/
def ViewportDB.focus (id : ℕ) (s : ViewportDB) : ViewportDB := { s with focused := id }

/-- `ViewportDB::hover`: a direct setter. -/
def ViewportDB.hover (id : Option ℕ) (s : ViewportDB) : ViewportDB := { s with hovered := id }

/-- `ViewportDB::split(direction)`.  The three extra arguments are the random
bytes drawn for the second child's clear color (`random()` is an external
input).  Returns `none` where the Rust code panics: when the focused node is
absent from the map (`unwrap`) or is a Split
(`panic!("A non-leaf viewport node cannot be focused")`). -/
def ViewportDB.split (direction : SplitDirection) (rr rg rb : ℕ) (s : ViewportDB) :
    Option ViewportDB :=
  let id := s.focused
  let c0_id := s.highest_id + 1
  let c1_id := s.highest_id + 2
  match AList.lookup id s.nodes with
  | none => none
  | some (ViewportNode.Split _ _ _) => none
  | some (ViewportNode.Whole parent info) =>
    let splitNode : ViewportNode :=
      ViewportNode.Split parent
        { direction := direction
          origin := SplitOrigin.Middle
          unit := SplitUnit.Ratio
          value := 0 } (c0_id, c1_id)
    let c0_info := info
    let c1_info : ViewportInfo := { info with clear_color := Rgba.new_opaque_mapped rr rg rb }
    let c0_node := ViewportNode.Whole (some id) c0_info
    let c1_node := ViewportNode.Whole (some id) c1_info
    some { s with
      nodes := AList.insert c1_id c1_node (AList.insert c0_id c0_node
                 (AList.insert id splitNode s.nodes))
      highest_id := s.highest_id + 2
      focused := c0_id }

/-- `ViewportDB::split_h()`. -/
def ViewportDB.split_h (rr rg rb : ℕ) (s : ViewportDB) : Option ViewportDB :=
  s.split SplitDirection.Horizontal rr rg rb

/-- `ViewportDB::split_v()`. -/
def ViewportDB.split_v (rr rg rb : ℕ) (s : ViewportDB) : Option ViewportDB :=
  s.split SplitDirection.Vertical rr rg rb

/-- `ViewportDB::merge()`.  Returns `none` where the Rust code panics: focused
node absent, focused node a Split, the parent absent, the parent a Whole
(`panic!("A parent node can't be whole")`), or either child `remove(..).unwrap()`
failing.  `merge` on a parentless focused leaf returns the state unchanged. -/
def ViewportDB.merge (s : ViewportDB) : Option ViewportDB :=
  let focus_id := s.focused
  match AList.lookup focus_id s.nodes with
  | none => none
  | some (ViewportNode.Split _ _ _) => none
  | some (ViewportNode.Whole parent info) =>
    match parent with
    | none => some s
    | some merge_id =>
      match AList.lookup merge_id s.nodes with
      | none => none
      | some (ViewportNode.Whole _ _) => none
      | some (ViewportNode.Split mparent _ (c0_id, c1_id)) =>
        let m1 := AList.insert merge_id (ViewportNode.Whole mparent info) s.nodes
        match AList.lookup c0_id m1 with
        | none => none
        | some _ =>
          let m2 := AList.erase c0_id m1
          match AList.lookup c1_id m2 with
          | none => none
          | some _ =>
            some { s with nodes := AList.erase c1_id m2, focused := merge_id }

/-- Lookup through an insert, as a single if-then-else characterization. -/
theorem lookup_ins (m : NodeMap) (k n : ℕ) (v : ViewportNode) :
    AList.lookup n (AList.insert k v m) = if n = k then some v else AList.lookup n m := by
  by_cases h : n = k
  · subst h; simp [AList.lookup_insert]
  · simp [h, AList.lookup_insert_ne h]

/-- Lookup through an erase, as a single if-then-else characterization. -/
theorem lookup_ers (m : NodeMap) (k n : ℕ) :
    AList.lookup n (AList.erase k m) = if n = k then none else AList.lookup n m := by
  by_cases h : n = k
  · subst h; simp [AList.lookup_erase]
  · simp [h, AList.lookup_erase_ne h]

theorem lookup_empty_nodemap (n : ℕ) : AList.lookup n (∅ : NodeMap) = none := by
  simp [AList.lookup_eq_none]

/-- C1: starting from a fresh `ViewportDB` (single Leaf root, ID 0), the
sequence `split_v(); split_h(); merge(); merge()` produces exactly the states
of the concrete scenario: after `split_v` the root is a Vertical Split with
children (1,2) and focused = 1; after `split_h` node 1 is a Horizontal Split
with children (3,4) and focused = 3; the first `merge` turns node 1 back into
a Leaf, removes nodes 3 and 4 and focuses 1; the second `merge` turns the
root back into a Leaf, removes nodes 1 and 2 and focuses 0. -/
theorem c1_concrete_scenario :
    ∃ s1 s2 s3 s4,
      ViewportDB.split_v 10 20 30 ViewportDB.new = some s1 ∧
      AList.lookup 0 s1.nodes = some (ViewportNode.Split none
        { origin := SplitOrigin.Middle, unit := SplitUnit.Ratio, value := 0,
          direction := SplitDirection.Vertical } (1, 2)) ∧
      s1.focused = 1 ∧
      ViewportDB.split_h 40 50 60 s1 = some s2 ∧
      AList.lookup 1 s2.nodes = some (ViewportNode.Split (some 0)
        { origin := SplitOrigin.Middle, unit := SplitUnit.Ratio, value := 0,
          direction := SplitDirection.Horizontal } (3, 4)) ∧
      s2.focused = 3 ∧
      ViewportDB.merge s2 = some s3 ∧
      AList.lookup 1 s3.nodes = some (ViewportNode.Whole (some 0) ViewportInfo.default) ∧
      AList.lookup 3 s3.nodes = none ∧
      AList.lookup 4 s3.nodes = none ∧
      s3.focused = 1 ∧
      ViewportDB.merge s3 = some s4 ∧
      AList.lookup 0 s4.nodes = some (ViewportNode.Whole none ViewportInfo.default) ∧
      AList.lookup 1 s4.nodes = none ∧
      AList.lookup 2 s4.nodes = none ∧
      s4.focused = 0 := by
  exact ⟨_, _, _, _, rfl, rfl, rfl, rfl, rfl, rfl, rfl, rfl, rfl, rfl, rfl, rfl,
    rfl, rfl, rfl, rfl⟩

/-- C8: calling `merge()` when the focused Leaf is the root (parent `None`)
is a no-op: the returned state is the input state, completely unchanged. -/
theorem c8_merge_root_noop (s : ViewportDB) (i : ViewportInfo)
    (h : AList.lookup s.focused s.nodes = some (ViewportNode.Whole none i)) :
    ViewportDB.merge s = some s := by
  simp only [ViewportDB.merge, h]

/-- Witness for C8 at the freshly created `ViewportDB`. -/
theorem c8_merge_root_noop_witness : ViewportDB.merge ViewportDB.new = some ViewportDB.new :=
  c8_merge_root_noop ViewportDB.new ViewportInfo.default rfl

/-- The node at `n` exists and is a Leaf (`Whole`). -/
def isLeafAt (m : NodeMap) (n : ℕ) : Prop :=
  ∃ p i, AList.lookup n m = some (ViewportNode.Whole p i)

/-- Structural invariant of a `ViewportDB` maintained by `split`/`merge`
sequences from the initial single-Leaf state: the focused node is a Leaf,
allocated IDs are bounded by `highest_id`, the root exists, is parentless and
is the only parentless node, every Split's recorded children exist with
matching back-pointers and strictly larger IDs, every recorded parent is a
Split listing the node among its children, the second child of every Split
is a Leaf, and neither the focused node nor any Split is a second child. -/
structure SInv (s : ViewportDB) : Prop where
  focused_leaf : isLeafAt s.nodes s.focused
  hi_bound : ∀ n nd, AList.lookup n s.nodes = some nd → n ≤ s.highest_id
  root_mem : ∃ nd, AList.lookup s.root s.nodes = some nd ∧ nd.parent = none
  root_only : ∀ n nd, AList.lookup n s.nodes = some nd → nd.parent = none → n = s.root
  child_link : ∀ n p sp c0 c1,
    AList.lookup n s.nodes = some (ViewportNode.Split p sp (c0, c1)) →
    n < c0 ∧ n < c1 ∧ c0 ≠ c1 ∧
      (∃ nd0, AList.lookup c0 s.nodes = some nd0 ∧ nd0.parent = some n) ∧
      (∃ nd1, AList.lookup c1 s.nodes = some nd1 ∧ nd1.parent = some n)
  parent_link : ∀ n nd q, AList.lookup n s.nodes = some nd → nd.parent = some q →
    ∃ qp sp c0 c1, AList.lookup q s.nodes = some (ViewportNode.Split qp sp (c0, c1)) ∧
      (n = c0 ∨ n = c1)
  second_leaf : ∀ n p sp c0 c1,
    AList.lookup n s.nodes = some (ViewportNode.Split p sp (c0, c1)) → isLeafAt s.nodes c1
  focused_not_second : ∀ n p sp c0 c1,
    AList.lookup n s.nodes = some (ViewportNode.Split p sp (c0, c1)) → s.focused ≠ c1

theorem sinv_new : SInv ViewportDB.new := by
  have L : ∀ n, AList.lookup n ViewportDB.new.nodes =
      if n = 0 then some ViewportNode.default else none := by
    intro n
    rw [ViewportDB.new]
    rw [lookup_ins]
    by_cases h : n = 0 <;> simp [h, lookup_empty_nodemap]
  constructor
  · exact ⟨none, ViewportInfo.default, by rw [L]; rfl⟩
  · intro n nd hl; rw [L] at hl
    by_cases h : n = 0
    · omega
    · rw [if_neg h] at hl; exact absurd hl (by simp)
  · exact ⟨ViewportNode.default, by rw [L]; rfl, rfl⟩
  · intro n nd hl _; rw [L] at hl
    by_cases h : n = 0
    · exact h
    · rw [if_neg h] at hl; exact absurd hl (by simp)
  · intro n p sp c0 c1 hl; rw [L] at hl
    by_cases h : n = 0
    · rw [if_pos h] at hl
      exact absurd hl (by rw [ViewportNode.default]; simp)
    · rw [if_neg h] at hl; exact absurd hl (by simp)
  · intro n nd q hl hp; rw [L] at hl
    by_cases h : n = 0
    · rw [if_pos h] at hl
      have : nd = ViewportNode.default := by
        have := hl
        injection this with h2
        exact h2.symm
      subst this
      exact absurd hp (by rw [ViewportNode.default] at *; simp [ViewportNode.parent] at *)
    · rw [if_neg h] at hl; exact absurd hl (by simp)
  · intro n p sp c0 c1 hl; rw [L] at hl
    by_cases h : n = 0
    · rw [if_pos h] at hl
      exact absurd hl (by rw [ViewportNode.default]; simp)
    · rw [if_neg h] at hl; exact absurd hl (by simp)
  · intro n p sp c0 c1 hl; rw [L] at hl
    by_cases h : n = 0
    · rw [if_pos h] at hl
      exact absurd hl (by rw [ViewportNode.default]; simp)
    · rw [if_neg h] at hl; exact absurd hl (by simp)

/-- `split` preserves the structural invariant. -/
theorem sinv_split (s s' : ViewportDB) (d : SplitDirection) (rr rg rb : ℕ)
    (inv : SInv s) (hsp : ViewportDB.split d rr rg rb s = some s') : SInv s' := by
  obtain ⟨p, i, hf⟩ := inv.focused_leaf
  have hfle : s.focused ≤ s.highest_id := inv.hi_bound _ _ hf
  have heq : ViewportDB.split d rr rg rb s = some
      { s with
        nodes := AList.insert (s.highest_id + 2)
            (ViewportNode.Whole (some s.focused) { clear_color := Rgba.new_opaque_mapped rr rg rb })
            (AList.insert (s.highest_id + 1) (ViewportNode.Whole (some s.focused) i)
              (AList.insert s.focused
                (ViewportNode.Split p
                  { origin := SplitOrigin.Middle, unit := SplitUnit.Ratio, value := 0,
                    direction := d } (s.highest_id + 1, s.highest_id + 2)) s.nodes))
        highest_id := s.highest_id + 2
        focused := s.highest_id + 1 } := by
    simp only [ViewportDB.split, hf]
  rw [heq] at hsp
  have hs' := Option.some.inj hsp
  subst hs'
  have L : ∀ n, AList.lookup n
      (AList.insert (s.highest_id + 2)
        (ViewportNode.Whole (some s.focused) { clear_color := Rgba.new_opaque_mapped rr rg rb })
        (AList.insert (s.highest_id + 1) (ViewportNode.Whole (some s.focused) i)
          (AList.insert s.focused
            (ViewportNode.Split p
              { origin := SplitOrigin.Middle, unit := SplitUnit.Ratio, value := 0,
                direction := d } (s.highest_id + 1, s.highest_id + 2)) s.nodes))) =
      if n = s.highest_id + 2 then
        some (ViewportNode.Whole (some s.focused) { clear_color := Rgba.new_opaque_mapped rr rg rb })
      else if n = s.highest_id + 1 then some (ViewportNode.Whole (some s.focused) i)
      else if n = s.focused then some (ViewportNode.Split p
        { origin := SplitOrigin.Middle, unit := SplitUnit.Ratio, value := 0,
          direction := d } (s.highest_id + 1, s.highest_id + 2))
      else AList.lookup n s.nodes := by
    intro n; simp only [lookup_ins]
  refine ⟨?_, ?_, ?_, ?_, ?_, ?_, ?_, ?_⟩ <;> dsimp only
  -- focused_leaf
  · simp only [isLeafAt]
    refine ⟨some s.focused, i, ?_⟩
    rw [L]
    rw [if_neg (by omega : ¬ s.highest_id + 1 = s.highest_id + 2), if_pos rfl]
  -- hi_bound
  · intro n nd hl
    rw [L] at hl
    split_ifs at hl with h1 h2 h3
    · omega
    · omega
    · omega
    · exact le_trans (inv.hi_bound _ _ hl) (by omega)
  -- root_mem
  · obtain ⟨ndr, hr, hrp⟩ := inv.root_mem
    have hrle : s.root ≤ s.highest_id := inv.hi_bound _ _ hr
    rw [L]
    rw [if_neg (by omega : ¬ s.root = s.highest_id + 2),
        if_neg (by omega : ¬ s.root = s.highest_id + 1)]
    by_cases hrf : s.root = s.focused
    · rw [if_pos hrf]
      refine ⟨_, rfl, ?_⟩
      have : ndr = ViewportNode.Whole p i := by
        rw [hrf] at hr; exact Option.some.inj (hr.symm.trans hf)
      subst this
      exact hrp
    · rw [if_neg hrf]
      exact ⟨ndr, hr, hrp⟩
  -- root_only
  · intro n nd hl hp
    show n = s.root
    rw [L] at hl
    split_ifs at hl with h1 h2 h3
    · have : nd = ViewportNode.Whole (some s.focused)
        { clear_color := Rgba.new_opaque_mapped rr rg rb } := (Option.some.inj hl).symm
      subst this
      simp [ViewportNode.parent] at hp
    · have : nd = ViewportNode.Whole (some s.focused) i := (Option.some.inj hl).symm
      subst this
      simp [ViewportNode.parent] at hp
    · have : nd = ViewportNode.Split p
          { origin := SplitOrigin.Middle, unit := SplitUnit.Ratio, value := 0,
            direction := d } (s.highest_id + 1, s.highest_id + 2) := (Option.some.inj hl).symm
      subst this
      rw [h3]
      exact inv.root_only _ _ hf (by simpa [ViewportNode.parent] using hp)
    · exact inv.root_only _ _ hl hp
  -- child_link
  · intro n q sp c0 c1 hl
    rw [L] at hl
    split_ifs at hl with h1 h2 h3
    · exact absurd (Option.some.inj hl) (by simp)
    · exact absurd (Option.some.inj hl) (by simp)
    · -- n = focused: the new split node
      have hinj := Option.some.inj hl
      have hq : p = q := by injection hinj
      have hc : (s.highest_id + 1, s.highest_id + 2) = (c0, c1) := by injection hinj
      have hc0 : c0 = s.highest_id + 1 := by
        have := congrArg Prod.fst hc; simpa using this.symm
      have hc1 : c1 = s.highest_id + 2 := by
        have := congrArg Prod.snd hc; simpa using this.symm
      subst hc0; subst hc1; subst h3
      refine ⟨by omega, by omega, by omega, ?_, ?_⟩
      · refine ⟨ViewportNode.Whole (some s.focused) i, ?_, rfl⟩
        rw [L, if_neg (by omega : ¬ s.highest_id + 1 = s.highest_id + 2), if_pos rfl]
      · refine ⟨ViewportNode.Whole (some s.focused)
          { clear_color := Rgba.new_opaque_mapped rr rg rb }, ?_, rfl⟩
        rw [L, if_pos rfl]
    · -- old split node
      obtain ⟨lt0, lt1, ne01, ⟨nd0, h0, hp0⟩, ⟨nd1, h1', hp1⟩⟩ := inv.child_link _ _ _ _ _ hl
      have hb0 : c0 ≤ s.highest_id := inv.hi_bound _ _ h0
      have hb1 : c1 ≤ s.highest_id := inv.hi_bound _ _ h1'
      refine ⟨lt0, lt1, ne01, ?_, ?_⟩
      · rw [L, if_neg (by omega : ¬ c0 = s.highest_id + 2),
            if_neg (by omega : ¬ c0 = s.highest_id + 1)]
        by_cases hcf : c0 = s.focused
        · rw [if_pos hcf]
          refine ⟨_, rfl, ?_⟩
          have : nd0 = ViewportNode.Whole p i := by
            rw [hcf] at h0; exact Option.some.inj (h0.symm.trans hf)
          subst this
          simpa [ViewportNode.parent] using hp0
        · rw [if_neg hcf]; exact ⟨nd0, h0, hp0⟩
      · rw [L, if_neg (by omega : ¬ c1 = s.highest_id + 2),
            if_neg (by omega : ¬ c1 = s.highest_id + 1)]
        by_cases hcf : c1 = s.focused
        · rw [if_pos hcf]
          refine ⟨_, rfl, ?_⟩
          have : nd1 = ViewportNode.Whole p i := by
            rw [hcf] at h1'; exact Option.some.inj (h1'.symm.trans hf)
          subst this
          simpa [ViewportNode.parent] using hp1
        · rw [if_neg hcf]; exact ⟨nd1, h1', hp1⟩
  -- parent_link
  · intro n nd q hl hp
    rw [L] at hl
    split_ifs at hl with h1 h2 h3
    · -- n = highest+2: second fresh child
      have : nd = ViewportNode.Whole (some s.focused)
        { clear_color := Rgba.new_opaque_mapped rr rg rb } := (Option.some.inj hl).symm
      subst this
      have hq : q = s.focused := by
        simp [ViewportNode.parent] at hp; exact hp.symm
      subst hq
      refine ⟨p, Split.mk SplitOrigin.Middle SplitUnit.Ratio 0 d,
        s.highest_id + 1, s.highest_id + 2, ?_, Or.inr h1⟩
      rw [L, if_neg (by omega : ¬ s.focused = s.highest_id + 2),
          if_neg (by omega : ¬ s.focused = s.highest_id + 1), if_pos rfl]
    · -- n = highest+1: first fresh child
      have : nd = ViewportNode.Whole (some s.focused) i := (Option.some.inj hl).symm
      subst this
      have hq : q = s.focused := by
        simp [ViewportNode.parent] at hp; exact hp.symm
      subst hq
      refine ⟨p, Split.mk SplitOrigin.Middle SplitUnit.Ratio 0 d,
        s.highest_id + 1, s.highest_id + 2, ?_, Or.inl h2⟩
      rw [L, if_neg (by omega : ¬ s.focused = s.highest_id + 2),
          if_neg (by omega : ¬ s.focused = s.highest_id + 1), if_pos rfl]
    · -- n = focused: the new split node, parent p = some q
      have : nd = ViewportNode.Split p
          { origin := SplitOrigin.Middle, unit := SplitUnit.Ratio, value := 0,
            direction := d } (s.highest_id + 1, s.highest_id + 2) := (Option.some.inj hl).symm
      subst this
      have hpq : p = some q := by simpa [ViewportNode.parent] using hp
      obtain ⟨qp, spq, d0, d1, hq, hor⟩ :=
        inv.parent_link _ _ q hf (by simpa [ViewportNode.parent] using hpq)
      have hqle : q ≤ s.highest_id := inv.hi_bound _ _ hq
      have hqf : q ≠ s.focused := by
        intro hqf
        rw [hqf] at hq
        exact absurd (Option.some.inj (hq.symm.trans hf)) (by simp)
      refine ⟨qp, spq, d0, d1, ?_, by rw [h3]; exact hor⟩
      rw [L, if_neg (by omega : ¬ q = s.highest_id + 2),
          if_neg (by omega : ¬ q = s.highest_id + 1), if_neg hqf]
      exact hq
    · -- untouched node
      obtain ⟨qp, spq, d0, d1, hq, hor⟩ := inv.parent_link _ _ q hl hp
      have hqle : q ≤ s.highest_id := inv.hi_bound _ _ hq
      have hqf : q ≠ s.focused := by
        intro hqf
        rw [hqf] at hq
        exact absurd (Option.some.inj (hq.symm.trans hf)) (by simp)
      refine ⟨qp, spq, d0, d1, ?_, hor⟩
      rw [L, if_neg (by omega : ¬ q = s.highest_id + 2),
          if_neg (by omega : ¬ q = s.highest_id + 1), if_neg hqf]
      exact hq
  -- second_leaf
  · intro n q sp c0 c1 hl
    simp only [isLeafAt]
    rw [L] at hl
    split_ifs at hl with h1 h2 h3
    · exact absurd (Option.some.inj hl) (by simp)
    · exact absurd (Option.some.inj hl) (by simp)
    · -- the new split: second child is the fresh leaf highest+2
      have hinj := Option.some.inj hl
      have hc : (s.highest_id + 1, s.highest_id + 2) = (c0, c1) := by injection hinj
      have hc1 : c1 = s.highest_id + 2 := by
        have := congrArg Prod.snd hc; simpa using this.symm
      subst hc1
      refine ⟨some s.focused, { clear_color := Rgba.new_opaque_mapped rr rg rb }, ?_⟩
      rw [L, if_pos rfl]
    · -- old split: its second child is an old leaf, unchanged
      obtain ⟨pp, ii, hc1⟩ := inv.second_leaf _ _ _ _ _ hl
      have hb1 : c1 ≤ s.highest_id := inv.hi_bound _ _ hc1
      have hfc : s.focused ≠ c1 := inv.focused_not_second _ _ _ _ _ hl
      refine ⟨pp, ii, ?_⟩
      rw [L, if_neg (by omega : ¬ c1 = s.highest_id + 2),
          if_neg (by omega : ¬ c1 = s.highest_id + 1), if_neg (Ne.symm hfc)]
      exact hc1
  -- focused_not_second
  · intro n q sp c0 c1 hl
    rw [L] at hl
    split_ifs at hl with h1 h2 h3
    · exact absurd (Option.some.inj hl) (by simp)
    · exact absurd (Option.some.inj hl) (by simp)
    · have hinj := Option.some.inj hl
      have hc : (s.highest_id + 1, s.highest_id + 2) = (c0, c1) := by injection hinj
      have hc1 : c1 = s.highest_id + 2 := by
        have := congrArg Prod.snd hc; simpa using this.symm
      omega
    · obtain ⟨_, _, _, _, ⟨nd1, h1', _⟩⟩ := inv.child_link _ _ _ _ _ hl
      have hb1 : c1 ≤ s.highest_id := inv.hi_bound _ _ h1'
      omega

/-- `merge` preserves the structural invariant. -/
theorem sinv_merge (s s' : ViewportDB) (inv : SInv s)
    (hm : ViewportDB.merge s = some s') : SInv s' := by
  obtain ⟨p, i, hf⟩ := inv.focused_leaf
  cases p with
  | none =>
    have heq : ViewportDB.merge s = some s := by simp only [ViewportDB.merge, hf]
    rw [heq] at hm
    rw [← Option.some.inj hm]
    exact inv
  | some m =>
    obtain ⟨qp, sp, c0, c1, hmlook, hor⟩ :=
      inv.parent_link _ _ m hf (by simp [ViewportNode.parent])
    have hfc1 : s.focused ≠ c1 := inv.focused_not_second _ _ _ _ _ hmlook
    have hfc0 : s.focused = c0 := by
      rcases hor with h | h
      · exact h
      · exact absurd h hfc1
    obtain ⟨hlt0, hlt1, hne01, ⟨nd0, hnd0, hp0⟩, ⟨nd1, hnd1, hp1⟩⟩ :=
      inv.child_link _ _ _ _ _ hmlook
    obtain ⟨pp1, ii1, hc1w⟩ := inv.second_leaf _ _ _ _ _ hmlook
    have hnd1w : nd1 = ViewportNode.Whole pp1 ii1 := Option.some.inj (hnd1.symm.trans hc1w)
    have hnd0w : nd0 = ViewportNode.Whole (some m) i := by
      have hff := hf
      rw [hfc0] at hff
      exact Option.some.inj (hnd0.symm.trans hff)
    have hmne0 : m ≠ c0 := by omega
    have hmne1 : m ≠ c1 := by omega
    have heq : ViewportDB.merge s = some
        { s with
          nodes := AList.erase c1 (AList.erase c0
            (AList.insert m (ViewportNode.Whole qp i) s.nodes))
          focused := m } := by
      simp only [ViewportDB.merge, hf, hmlook, lookup_ins, lookup_ers,
        if_neg (Ne.symm hmne0), if_neg (Ne.symm hmne1), if_neg (Ne.symm hne01), hnd0, hnd1]
    rw [heq] at hm
    rw [← Option.some.inj hm]
    clear hm heq
    have L : ∀ n, AList.lookup n (AList.erase c1 (AList.erase c0
        (AList.insert m (ViewportNode.Whole qp i) s.nodes))) =
        if n = c1 then none
        else if n = c0 then none
        else if n = m then some (ViewportNode.Whole qp i)
        else AList.lookup n s.nodes := by
      intro n; simp only [lookup_ers, lookup_ins]
    refine ⟨?_, ?_, ?_, ?_, ?_, ?_, ?_, ?_⟩ <;> dsimp only
    -- focused_leaf
    · simp only [isLeafAt]
      refine ⟨qp, i, ?_⟩
      rw [L, if_neg hmne1, if_neg hmne0, if_pos rfl]
    -- hi_bound
    · intro n nd hl
      rw [L] at hl
      split_ifs at hl with h1 h2 h3
      · subst h3; exact inv.hi_bound _ _ hmlook
      · exact inv.hi_bound _ _ hl
    -- root_mem
    · obtain ⟨ndr, hr, hrp⟩ := inv.root_mem
      have hrc0 : s.root ≠ c0 := by
        intro h
        rw [h] at hr
        have hre : ndr = nd0 := Option.some.inj (hr.symm.trans hnd0)
        rw [hre, hp0] at hrp
        exact absurd hrp (by simp)
      have hrc1 : s.root ≠ c1 := by
        intro h
        rw [h] at hr
        have hre : ndr = nd1 := Option.some.inj (hr.symm.trans hnd1)
        rw [hre, hp1] at hrp
        exact absurd hrp (by simp)
      by_cases hrm : s.root = m
      · refine ⟨ViewportNode.Whole qp i, ?_, ?_⟩
        · rw [L, if_neg hrc1, if_neg hrc0, if_pos hrm]
        · rw [hrm] at hr
          have hre : ndr = ViewportNode.Split qp sp (c0, c1) :=
            Option.some.inj (hr.symm.trans hmlook)
          rw [hre] at hrp
          simpa [ViewportNode.parent] using hrp
      · refine ⟨ndr, ?_, hrp⟩
        rw [L, if_neg hrc1, if_neg hrc0, if_neg hrm]
        exact hr
    -- root_only
    · intro n nd hl hp
      rw [L] at hl
      split_ifs at hl with h1 h2 h3
      · have hnd : nd = ViewportNode.Whole qp i := (Option.some.inj hl).symm
        rw [hnd] at hp
        have hqpn : qp = none := by simpa [ViewportNode.parent] using hp
        rw [h3]
        exact inv.root_only _ _ hmlook (by simp [ViewportNode.parent, hqpn])
      · exact inv.root_only _ _ hl hp
    -- child_link
    · intro n q spn d0 d1 hl
      rw [L] at hl
      split_ifs at hl with h1 h2 h3
      · exact absurd (Option.some.inj hl) (by simp)
      · obtain ⟨l0, l1, lne, ⟨e0, he0, hep0⟩, ⟨e1, he1, hep1⟩⟩ := inv.child_link _ _ _ _ _ hl
        have survive : ∀ cc ee, AList.lookup cc s.nodes = some ee → ee.parent = some n →
            ∃ ee', AList.lookup cc (AList.erase c1 (AList.erase c0
              (AList.insert m (ViewportNode.Whole qp i) s.nodes))) = some ee' ∧
              ee'.parent = some n := by
          intro cc ee he hep
          have hcc1 : cc ≠ c1 := by
            intro h
            rw [h] at he
            have : ee = nd1 := Option.some.inj (he.symm.trans hnd1)
            rw [this, hp1] at hep
            exact h3 (Option.some.inj hep).symm
          have hcc0 : cc ≠ c0 := by
            intro h
            rw [h] at he
            have : ee = nd0 := Option.some.inj (he.symm.trans hnd0)
            rw [this, hp0] at hep
            exact h3 (Option.some.inj hep).symm
          by_cases hccm : cc = m
          · refine ⟨ViewportNode.Whole qp i, ?_, ?_⟩
            · rw [L, if_neg hcc1, if_neg hcc0, if_pos hccm]
            · rw [hccm] at he
              have : ee = ViewportNode.Split qp sp (c0, c1) :=
                Option.some.inj (he.symm.trans hmlook)
              rw [this] at hep
              simpa [ViewportNode.parent] using hep
          · refine ⟨ee, ?_, hep⟩
            rw [L, if_neg hcc1, if_neg hcc0, if_neg hccm]
            exact he
        exact ⟨l0, l1, lne, survive _ _ he0 hep0, survive _ _ he1 hep1⟩
    -- parent_link
    · intro n nd q hl hp
      rw [L] at hl
      split_ifs at hl with h1 h2 h3
      · -- n = m, the collapsed node
        have hnd : nd = ViewportNode.Whole qp i := (Option.some.inj hl).symm
        rw [hnd] at hp
        have hqp : qp = some q := by simpa [ViewportNode.parent] using hp
        obtain ⟨Qp, Sq, e0, e1, hq, horm⟩ :=
          inv.parent_link _ _ q hmlook (by simp [ViewportNode.parent, hqp])
        have hqc1 : q ≠ c1 := by
          intro h
          rw [h] at hq
          exact absurd (Option.some.inj (hq.symm.trans hc1w)) (by simp)
        have hqc0 : q ≠ c0 := by
          intro h
          rw [h] at hq
          have hff := hf
          rw [hfc0] at hff
          exact absurd (Option.some.inj (hq.symm.trans hff)) (by simp)
        have hqm : q ≠ m := by
          intro h
          rw [h] at hq
          have he := Option.some.inj (hq.symm.trans hmlook)
          have he0 : e0 = c0 := by
            have := congrArg (fun nd => match nd with
              | ViewportNode.Split _ _ c => c.1
              | _ => 0) he
            simpa using this
          have he1 : e1 = c1 := by
            have := congrArg (fun nd => match nd with
              | ViewportNode.Split _ _ c => c.2
              | _ => 0) he
            simpa using this
          rw [he0, he1] at horm
          rcases horm with hh | hh <;> omega
        refine ⟨Qp, Sq, e0, e1, ?_, by rw [h3]; exact horm⟩
        rw [L, if_neg hqc1, if_neg hqc0, if_neg hqm]
        exact hq
      · -- untouched node
        obtain ⟨Qp, Sq, e0, e1, hq, horq⟩ := inv.parent_link _ _ q hl hp
        have hqc1 : q ≠ c1 := by
          intro h
          rw [h] at hq
          exact absurd (Option.some.inj (hq.symm.trans hc1w)) (by simp)
        have hqc0 : q ≠ c0 := by
          intro h
          rw [h] at hq
          have hff := hf
          rw [hfc0] at hff
          exact absurd (Option.some.inj (hq.symm.trans hff)) (by simp)
        have hqm : q ≠ m := by
          intro h
          rw [h] at hq
          have he := Option.some.inj (hq.symm.trans hmlook)
          have he0 : e0 = c0 := by
            have := congrArg (fun nd => match nd with
              | ViewportNode.Split _ _ c => c.1
              | _ => 0) he
            simpa using this
          have he1 : e1 = c1 := by
            have := congrArg (fun nd => match nd with
              | ViewportNode.Split _ _ c => c.2
              | _ => 0) he
            simpa using this
          rcases horq with hh | hh
          · rw [he0] at hh; exact h2 hh
          · rw [he1] at hh; exact h1 hh
        refine ⟨Qp, Sq, e0, e1, ?_, horq⟩
        rw [L, if_neg hqc1, if_neg hqc0, if_neg hqm]
        exact hq
    -- second_leaf
    · intro n q spn d0 d1 hl
      simp only [isLeafAt]
      rw [L] at hl
      split_ifs at hl with h1 h2 h3
      · exact absurd (Option.some.inj hl) (by simp)
      · obtain ⟨pp, ii, hw⟩ := inv.second_leaf _ _ _ _ _ hl
        obtain ⟨l0, l1, lne, ⟨e0, he0, hep0⟩, ⟨e1, he1, hep1⟩⟩ := inv.child_link _ _ _ _ _ hl
        have hd1c1 : d1 ≠ c1 := by
          intro h
          rw [h] at he1
          have : e1 = nd1 := Option.some.inj (he1.symm.trans hnd1)
          rw [this, hp1] at hep1
          exact h3 (Option.some.inj hep1).symm
        have hd1c0 : d1 ≠ c0 := by
          intro h
          rw [h] at he1
          have : e1 = nd0 := Option.some.inj (he1.symm.trans hnd0)
          rw [this, hp0] at hep1
          exact h3 (Option.some.inj hep1).symm
        have hd1m : d1 ≠ m := by
          intro h
          rw [h] at hw
          exact absurd (Option.some.inj (hw.symm.trans hmlook)) (by simp)
        refine ⟨pp, ii, ?_⟩
        rw [L, if_neg hd1c1, if_neg hd1c0, if_neg hd1m]
        exact hw
    -- focused_not_second
    · intro n q spn d0 d1 hl
      rw [L] at hl
      split_ifs at hl with h1 h2 h3
      · exact absurd (Option.some.inj hl) (by simp)
      · obtain ⟨pp, ii, hw⟩ := inv.second_leaf _ _ _ _ _ hl
        intro h
        rw [← h] at hw
        exact absurd (Option.some.inj (hw.symm.trans hmlook)) (by simp)

/-- States reachable from the freshly created `ViewportDB` by sequences of
`split` and `merge` (with arbitrary random color bytes).  Steps exist only
when the operation returns (does not panic). -/
inductive Reachable : ViewportDB → Prop where
  | base : Reachable ViewportDB.new
  | split (d : SplitDirection) (rr rg rb : ℕ) {s s' : ViewportDB} :
      Reachable s → ViewportDB.split d rr rg rb s = some s' → Reachable s'
  | merge {s s' : ViewportDB} :
      Reachable s → ViewportDB.merge s = some s' → Reachable s'

/-- Every reachable state satisfies the structural invariant. -/
theorem reachable_sinv {s : ViewportDB} (h : Reachable s) : SInv s := by
  induction h with
  | base => exact sinv_new
  | split d rr rg rb hr hstep ih => exact sinv_split _ _ d rr rg rb ih hstep
  | merge hr hstep ih => exact sinv_merge _ _ ih hstep

/-- Pre-order traversal of the viewport tree collecting node IDs, with
explicit fuel (the recursion in the source terminates because the tree is
acyclic; under `SInv`, `highest_id + 1` fuel always suffices since children
have strictly larger IDs).  `none` means a missing node or exhausted fuel. -/
def ViewportDB.traverse (s : ViewportDB) : ℕ → ℕ → Option (List ℕ)
  | 0, _ => none
  | fuel + 1, n =>
    match AList.lookup n s.nodes with
    | none => none
    | some (ViewportNode.Whole _ _) => some [n]
    | some (ViewportNode.Split _ _ (c0, c1)) =>
      match ViewportDB.traverse s fuel c0, ViewportDB.traverse s fuel c1 with
      | some l0, some l1 => some (n :: (l0 ++ l1))
      | _, _ => none

/-- `Desc s n m`: `m` lies in the subtree rooted at `n` (reflexive). -/
inductive Desc (s : ViewportDB) : ℕ → ℕ → Prop where
  | refl (n : ℕ) : Desc s n n
  | child {n a k : ℕ} {p : Option ℕ} {sp : Split} {c0 c1 : ℕ} : Desc s n a →
      AList.lookup a s.nodes = some (ViewportNode.Split p sp (c0, c1)) →
      (k = c0 ∨ k = c1) → Desc s n k

theorem desc_le {s : ViewportDB} (inv : SInv s) {n m : ℕ} (h : Desc s n m) : n ≤ m := by
  induction h with
  | refl => exact le_refl _
  | child hd ha hk ih =>
    obtain ⟨l0, l1, -, -, -⟩ := inv.child_link _ _ _ _ _ ha
    rcases hk with rfl | rfl <;> omega

theorem desc_mem {s : ViewportDB} (inv : SInv s) {n m : ℕ} (h : Desc s n m)
    (hn : ∃ nd, AList.lookup n s.nodes = some nd) :
    ∃ nd, AList.lookup m s.nodes = some nd := by
  induction h with
  | refl => exact hn
  | child hd ha hk ih =>
    obtain ⟨-, -, -, ⟨nd0, h0, -⟩, ⟨nd1, h1, -⟩⟩ := inv.child_link _ _ _ _ _ ha
    rcases hk with rfl | rfl
    · exact ⟨nd0, h0⟩
    · exact ⟨nd1, h1⟩

theorem desc_trans {s : ViewportDB} {n a m : ℕ} (h1 : Desc s n a) (h2 : Desc s a m) :
    Desc s n m := by
  induction h2 with
  | refl => exact h1
  | child hd ha hk ih => exact Desc.child ih ha hk

theorem desc_whole {s : ViewportDB} {n m : ℕ} (h : Desc s n m)
    (p : Option ℕ) (i : ViewportInfo)
    (hn : AList.lookup n s.nodes = some (ViewportNode.Whole p i)) : m = n := by
  induction h with
  | refl => rfl
  | child hd ha hk ih =>
    subst ih
    exact absurd (Option.some.inj (hn.symm.trans ha)) (by simp)

/-- A node is the child of at most one Split (via the back-pointers). -/
theorem child_parent_eq {s : ViewportDB} (inv : SInv s) {a b x : ℕ}
    {pa : Option ℕ} {spa : Split} {c0 c1 : ℕ} {pb : Option ℕ} {spb : Split} {d0 d1 : ℕ}
    (ha : AList.lookup a s.nodes = some (ViewportNode.Split pa spa (c0, c1)))
    (hxa : x = c0 ∨ x = c1)
    (hb : AList.lookup b s.nodes = some (ViewportNode.Split pb spb (d0, d1)))
    (hxb : x = d0 ∨ x = d1) : a = b := by
  obtain ⟨-, -, -, ⟨nd0, h0, hp0⟩, ⟨nd1, h1, hp1⟩⟩ := inv.child_link _ _ _ _ _ ha
  obtain ⟨-, -, -, ⟨md0, g0, gp0⟩, ⟨md1, g1, gp1⟩⟩ := inv.child_link _ _ _ _ _ hb
  have hxa' : ∃ nd, AList.lookup x s.nodes = some nd ∧ nd.parent = some a := by
    rcases hxa with rfl | rfl
    · exact ⟨nd0, h0, hp0⟩
    · exact ⟨nd1, h1, hp1⟩
  have hxb' : ∃ nd, AList.lookup x s.nodes = some nd ∧ nd.parent = some b := by
    rcases hxb with rfl | rfl
    · exact ⟨md0, g0, gp0⟩
    · exact ⟨md1, g1, gp1⟩
  obtain ⟨nda, hla, hpa2⟩ := hxa'
  obtain ⟨ndb, hlb, hpb2⟩ := hxb'
  have : nda = ndb := Option.some.inj (hla.symm.trans hlb)
  subst this
  exact Option.some.inj (hpa2.symm.trans hpb2)

/-- Subtrees of the two children of a Split are disjoint. -/
theorem desc_disjoint {s : ViewportDB} (inv : SInv s) :
    ∀ x a (p : Option ℕ) (sp : Split) (c0 c1 : ℕ),
      AList.lookup a s.nodes = some (ViewportNode.Split p sp (c0, c1)) →
      Desc s c0 x → Desc s c1 x → False := by
  intro x
  induction x using Nat.strong_induction_on with
  | _ x ih =>
    intro a p sp c0 c1 ha h0 h1
    obtain ⟨hlt0, hlt1, hne01, -, -⟩ := inv.child_link _ _ _ _ _ ha
    cases h0 with
    | refl =>
      cases h1 with
      | refl => exact hne01 rfl
      | @child b _ pb spb u0 u1 hd hb hk =>
        have hba : b = a := child_parent_eq inv hb hk ha (Or.inl rfl)
        rw [hba] at hd
        have := desc_le inv hd
        omega
    | @child b0 _ pb0 spb0 u0 u1 hd0 hb0 hk0 =>
      cases h1 with
      | refl =>
        have hba : b0 = a := child_parent_eq inv hb0 hk0 ha (Or.inr rfl)
        rw [hba] at hd0
        have := desc_le inv hd0
        omega
      | @child b1 _ pb1 spb1 v0 v1 hd1 hb1 hk1 =>
        have hbb : b0 = b1 := child_parent_eq inv hb0 hk0 hb1 hk1
        rw [hbb] at hd0 hb0
        obtain ⟨e0, e1, -, -, -⟩ := inv.child_link _ _ _ _ _ hb1
        have hxlt : b1 < x := by rcases hk1 with rfl | rfl <;> omega
        exact ih _ hxlt _ _ _ _ _ ha hd0 hd1

theorem desc_split_cases {s : ViewportDB} {n m : ℕ} (h : Desc s n m)
    {p : Option ℕ} {sp : Split} {c0 c1 : ℕ}
    (hn : AList.lookup n s.nodes = some (ViewportNode.Split p sp (c0, c1))) :
    m = n ∨ Desc s c0 m ∨ Desc s c1 m := by
  induction h with
  | refl => exact Or.inl rfl
  | @child b _ pb spb u0 u1 hd hb hk ih =>
    rcases ih with rfl | h0 | h1
    · have he := Option.some.inj (hn.symm.trans hb)
      have hu0 : u0 = c0 := by
        have := congrArg (fun nd => match nd with
          | ViewportNode.Split _ _ c => c.1
          | _ => 0) he
        simpa using this.symm
      have hu1 : u1 = c1 := by
        have := congrArg (fun nd => match nd with
          | ViewportNode.Split _ _ c => c.2
          | _ => 0) he
        simpa using this.symm
      rcases hk with rfl | rfl
      · exact Or.inr (Or.inl (hu0 ▸ Desc.refl _))
      · exact Or.inr (Or.inr (hu1 ▸ Desc.refl _))
    · exact Or.inr (Or.inl (Desc.child h0 hb hk))
    · exact Or.inr (Or.inr (Desc.child h1 hb hk))

/-- Characterization of `traverse` under the invariant: with enough fuel it
returns a duplicate-free list of exactly the descendants of the start node. -/
theorem traverse_spec {s : ViewportDB} (inv : SInv s) :
    ∀ (fuel n : ℕ), (∃ nd, AList.lookup n s.nodes = some nd) →
      s.highest_id < fuel + n →
      ∃ l, ViewportDB.traverse s fuel n = some l ∧ l.Nodup ∧ (∀ m, m ∈ l ↔ Desc s n m) := by
  intro fuel
  induction fuel with
  | zero =>
    intro n ⟨nd, hn⟩ hfuel
    exact absurd (inv.hi_bound _ _ hn) (by omega)
  | succ fuel ih =>
    intro n ⟨nd, hn⟩ hfuel
    match nd, hn with
    | ViewportNode.Whole p i, hn =>
      refine ⟨[n], ?_, by simp, ?_⟩
      · simp only [ViewportDB.traverse, hn]
      · intro m
        simp only [List.mem_singleton]
        constructor
        · rintro rfl; exact Desc.refl _
        · intro hd; exact desc_whole hd p i hn
    | ViewportNode.Split p sp (c0, c1), hn =>
      obtain ⟨hlt0, hlt1, hne01, ⟨nd0, h0, -⟩, ⟨nd1, h1, -⟩⟩ := inv.child_link _ _ _ _ _ hn
      obtain ⟨l0, ht0, hnd0, hm0⟩ := ih c0 ⟨nd0, h0⟩ (by omega)
      obtain ⟨l1, ht1, hnd1, hm1⟩ := ih c1 ⟨nd1, h1⟩ (by omega)
      refine ⟨n :: (l0 ++ l1), ?_, ?_, ?_⟩
      · simp only [ViewportDB.traverse, hn, ht0, ht1]
      · rw [List.nodup_cons, List.nodup_append]
        refine ⟨?_, hnd0, hnd1, ?_⟩
        · intro hmem
          rcases List.mem_append.1 hmem with hm | hm
          · have := desc_le inv ((hm0 _).1 hm); omega
          · have := desc_le inv ((hm1 _).1 hm); omega
        · intro x hx0 hx1
          exact desc_disjoint inv x _ _ _ _ _ hn ((hm0 _).1 hx0) ((hm1 _).1 hx1)
      · intro m
        simp only [List.mem_cons, List.mem_append]
        constructor
        · rintro (rfl | hm | hm)
          · exact Desc.refl _
          · exact desc_trans (Desc.child (Desc.refl n) hn (Or.inl rfl)) ((hm0 _).1 hm)
          · exact desc_trans (Desc.child (Desc.refl n) hn (Or.inr rfl)) ((hm1 _).1 hm)
        · intro hd
          rcases desc_split_cases hd hn with rfl | h | h
          · exact Or.inl rfl
          · exact Or.inr (Or.inl ((hm0 _).2 h))
          · exact Or.inr (Or.inr ((hm1 _).2 h))

/-- Every allocated node is a descendant of the root. -/
theorem all_desc_root {s : ViewportDB} (inv : SInv s) :
    ∀ n nd, AList.lookup n s.nodes = some nd → Desc s s.root n := by
  intro n
  induction n using Nat.strong_induction_on with
  | _ n ihn =>
    intro nd hn
    cases hpar : nd.parent with
    | none =>
      have := inv.root_only _ _ hn hpar
      subst this
      exact Desc.refl _
    | some q =>
      obtain ⟨qp, sq, e0, e1, hq, hor⟩ := inv.parent_link _ _ q hn hpar
      obtain ⟨l0, l1, -, -, -⟩ := inv.child_link _ _ _ _ _ hq
      have hqn : q < n := by rcases hor with rfl | rfl <;> omega
      exact Desc.child (ihn q hqn _ hq) hq hor

/-- States reachable from the fresh `ViewportDB` by arbitrary sequences of
the four operations, with `focus`/`hover` taking arbitrary arguments exactly
as the raw setters do (C4's reading of the operation set). -/
inductive ReachableAny : ViewportDB → Prop where
  | base : ReachableAny ViewportDB.new
  | split (d : SplitDirection) (rr rg rb : ℕ) {s s' : ViewportDB} :
      ReachableAny s → ViewportDB.split d rr rg rb s = some s' → ReachableAny s'
  | merge {s s' : ViewportDB} :
      ReachableAny s → ViewportDB.merge s = some s' → ReachableAny s'
  | focus (id : ℕ) {s : ViewportDB} : ReachableAny s → ReachableAny (ViewportDB.focus id s)
  | hover (h : Option ℕ) {s : ViewportDB} : ReachableAny s → ReachableAny (ViewportDB.hover h s)

/-- States reachable when `focus` honours its documented precondition (the
caller passes only IDs of existing Leaf nodes). -/
inductive ReachableF : ViewportDB → Prop where
  | base : ReachableF ViewportDB.new
  | split (d : SplitDirection) (rr rg rb : ℕ) {s s' : ViewportDB} :
      ReachableF s → ViewportDB.split d rr rg rb s = some s' → ReachableF s'
  | merge {s s' : ViewportDB} :
      ReachableF s → ViewportDB.merge s = some s' → ReachableF s'
  | focus (id : ℕ) {s : ViewportDB} : ReachableF s → isLeafAt s.nodes id →
      ReachableF (ViewportDB.focus id s)
  | hover (h : Option ℕ) {s : ViewportDB} : ReachableF s → ReachableF (ViewportDB.hover h s)

/-- Weak invariant: enough to keep the focused node an existing Leaf under
guarded `focus`, even though unrestricted click sequences can orphan subtrees. -/
structure WInv (s : ViewportDB) : Prop where
  focused_leaf : isLeafAt s.nodes s.focused
  hi_bound : ∀ n nd, AList.lookup n s.nodes = some nd → n ≤ s.highest_id
  child_gt : ∀ n p sp c0 c1,
    AList.lookup n s.nodes = some (ViewportNode.Split p sp (c0, c1)) → n < c0 ∧ n < c1

theorem winv_new : WInv ViewportDB.new :=
  ⟨sinv_new.focused_leaf, sinv_new.hi_bound, fun n p sp c0 c1 h =>
    ⟨(sinv_new.child_link n p sp c0 c1 h).1, (sinv_new.child_link n p sp c0 c1 h).2.1⟩⟩

theorem winv_split (s s' : ViewportDB) (d : SplitDirection) (rr rg rb : ℕ)
    (inv : WInv s) (hsp : ViewportDB.split d rr rg rb s = some s') : WInv s' := by
  obtain ⟨p, i, hf⟩ := inv.focused_leaf
  have hfle : s.focused ≤ s.highest_id := inv.hi_bound _ _ hf
  have heq : ViewportDB.split d rr rg rb s = some
      { s with
        nodes := AList.insert (s.highest_id + 2)
            (ViewportNode.Whole (some s.focused) { clear_color := Rgba.new_opaque_mapped rr rg rb })
            (AList.insert (s.highest_id + 1) (ViewportNode.Whole (some s.focused) i)
              (AList.insert s.focused
                (ViewportNode.Split p
                  { origin := SplitOrigin.Middle, unit := SplitUnit.Ratio, value := 0,
                    direction := d } (s.highest_id + 1, s.highest_id + 2)) s.nodes))
        highest_id := s.highest_id + 2
        focused := s.highest_id + 1 } := by
    simp only [ViewportDB.split, hf]
  rw [heq] at hsp
  rw [← Option.some.inj hsp]
  clear hsp heq
  refine ⟨?_, ?_, ?_⟩ <;> dsimp only
  · simp only [isLeafAt]
    refine ⟨some s.focused, i, ?_⟩
    rw [lookup_ins, if_neg (by omega : ¬ s.highest_id + 1 = s.highest_id + 2),
        lookup_ins, if_pos rfl]
  · intro n nd hl
    rw [lookup_ins, lookup_ins, lookup_ins] at hl
    split_ifs at hl with h1 h2 h3
    · omega
    · omega
    · omega
    · exact le_trans (inv.hi_bound _ _ hl) (by omega)
  · intro n q sp c0 c1 hl
    rw [lookup_ins, lookup_ins, lookup_ins] at hl
    split_ifs at hl with h1 h2 h3
    · exact absurd (Option.some.inj hl) (by simp)
    · exact absurd (Option.some.inj hl) (by simp)
    · have hinj := Option.some.inj hl
      have hc : (s.highest_id + 1, s.highest_id + 2) = (c0, c1) := by injection hinj
      have hc0 : c0 = s.highest_id + 1 := by
        have := congrArg Prod.fst hc; simpa using this.symm
      have hc1 : c1 = s.highest_id + 2 := by
        have := congrArg Prod.snd hc; simpa using this.symm
      omega
    · exact inv.child_gt _ _ _ _ _ hl

theorem winv_merge (s s' : ViewportDB) (inv : WInv s)
    (hm : ViewportDB.merge s = some s') : WInv s' := by
  obtain ⟨p, i, hf⟩ := inv.focused_leaf
  cases p with
  | none =>
    have heq : ViewportDB.merge s = some s := by simp only [ViewportDB.merge, hf]
    rw [heq] at hm
    rw [← Option.some.inj hm]
    exact inv
  | some m =>
    cases hmlook : AList.lookup m s.nodes with
    | none =>
      have heq : ViewportDB.merge s = none := by simp only [ViewportDB.merge, hf, hmlook]
      rw [heq] at hm
      exact absurd hm (by simp)
    | some ndm =>
      match ndm, hmlook with
      | ViewportNode.Whole _ _, hmlook =>
        have heq : ViewportDB.merge s = none := by simp only [ViewportDB.merge, hf, hmlook]
        rw [heq] at hm
        exact absurd hm (by simp)
      | ViewportNode.Split mp spm (c0, c1), hmlook =>
        obtain ⟨hlt0, hlt1⟩ := inv.child_gt _ _ _ _ _ hmlook
        have hmle : m ≤ s.highest_id := inv.hi_bound _ _ hmlook
        have hmne0 : m ≠ c0 := by omega
        have hmne1 : m ≠ c1 := by omega
        -- the two removals must have succeeded for `merge` to return `some`
        cases h0 : AList.lookup c0 s.nodes with
        | none =>
          have heq : ViewportDB.merge s = none := by
            simp only [ViewportDB.merge, hf, hmlook, lookup_ins,
              if_neg (Ne.symm hmne0), h0]
          rw [heq] at hm
          exact absurd hm (by simp)
        | some nd0 =>
          cases h1 : AList.lookup c1 s.nodes with
          | none =>
            have heq : ViewportDB.merge s = none := by
              simp only [ViewportDB.merge, hf, hmlook, lookup_ins, lookup_ers,
                if_neg (Ne.symm hmne0), if_neg (Ne.symm hmne1), h0, h1, ite_self]
            rw [heq] at hm
            exact absurd hm (by simp)
          | some nd1 =>
            by_cases hne01 : c1 = c0
            · have heq : ViewportDB.merge s = none := by
                simp only [ViewportDB.merge, hf, hmlook, lookup_ins, lookup_ers,
                  if_neg (Ne.symm hmne0), if_neg (Ne.symm hmne1), h0, h1, if_pos hne01]
              rw [heq] at hm
              exact absurd hm (by simp)
            · have heq : ViewportDB.merge s = some
                  { s with
                    nodes := AList.erase c1 (AList.erase c0
                      (AList.insert m (ViewportNode.Whole mp i) s.nodes))
                    focused := m } := by
                simp only [ViewportDB.merge, hf, hmlook, lookup_ins, lookup_ers,
                  if_neg (Ne.symm hmne0), if_neg (Ne.symm hmne1), if_neg hne01, h0, h1]
              rw [heq] at hm
              rw [← Option.some.inj hm]
              clear hm heq
              refine ⟨?_, ?_, ?_⟩ <;> dsimp only
              · simp only [isLeafAt]
                refine ⟨mp, i, ?_⟩
                rw [lookup_ers, if_neg hmne1, lookup_ers, if_neg hmne0,
                    lookup_ins, if_pos rfl]
              · intro n nd hl
                rw [lookup_ers, lookup_ers, lookup_ins] at hl
                split_ifs at hl with hh1 hh2 hh3
                · subst hh3; exact hmle
                · exact inv.hi_bound _ _ hl
              · intro n q sp d0 d1 hl
                rw [lookup_ers, lookup_ers, lookup_ins] at hl
                split_ifs at hl with hh1 hh2 hh3
                · exact absurd (Option.some.inj hl) (by simp)
                · exact inv.child_gt _ _ _ _ _ hl

theorem reachableF_winv {s : ViewportDB} (h : ReachableF s) : WInv s := by
  induction h with
  | base => exact winv_new
  | split d rr rg rb hr hstep ih => exact winv_split _ _ d rr rg rb ih hstep
  | merge hr hstep ih => exact winv_merge _ _ ih hstep
  | focus id hr hleaf ih => exact ⟨hleaf, ih.hi_bound, ih.child_gt⟩
  | hover hv hr ih => exact ⟨ih.focused_leaf, ih.hi_bound, ih.child_gt⟩

/-- The `u32` modulus: additions in the rectangle math wrap at this bound. -/
def u32Mod : ℕ := 4294967296

/-- Modelled from the spec: vek's `Rect<u32, u32>` — a position and extents. -/
structure Rect where
  x : ℕ
  y : ℕ
  w : ℕ
  h : ℕ
  deriving DecidableEq, Repr

/-- The region covered by a rectangle: the half-open integer box. -/
def Rect.containsPt (r : Rect) (px py : ℕ) : Prop :=
  r.x ≤ px ∧ px < r.x + r.w ∧ r.y ≤ py ∧ py < r.y + r.h

/-- A `u32`-representable rectangle whose far edges do not overflow. -/
def Rect.u32Valid (r : Rect) : Prop :=
  r.x < u32Mod ∧ r.y < u32Mod ∧ r.x + r.w ≤ u32Mod ∧ r.y + r.h ≤ u32Mod

/-- The two child rectangles computed by `visit_viewport` for a Split node:
always an even 50/50 integer division of the height (`Horizontal`) or width
(`Vertical`); the second child gets the remainder and is offset by the first
child's size.  The offset addition is `u32` arithmetic, hence the explicit
wrap; the subtraction cannot underflow since `h / 2 ≤ h`. -/
def splitRects (d : SplitDirection) (rect : Rect) : Rect × Rect :=
  match d with
  | SplitDirection.Horizontal =>
    ({ rect with h := rect.h / 2 },
     { rect with h := rect.h - rect.h / 2, y := (rect.y + rect.h / 2) % u32Mod })
  | SplitDirection.Vertical =>
    ({ rect with w := rect.w / 2 },
     { rect with w := rect.w - rect.w / 2, x := (rect.x + rect.w / 2) % u32Mod })

/-- The (id, rectangle) pairs delivered to `accept_leaf_viewport` by
`ViewportDB::visit_viewport` starting at node `n` mapped onto `rect`
(pre-order, first child before second), with explicit fuel; `none` models a
missing node or exhausted fuel. -/
def visitRects (s : ViewportDB) : ℕ → ℕ → Rect → Option (List (ℕ × Rect))
  | 0, _, _ => none
  | fuel + 1, n, rect =>
    match AList.lookup n s.nodes with
    | none => none
    | some (ViewportNode.Whole _ _) => some [(n, rect)]
    | some (ViewportNode.Split _ sp (c0, c1)) =>
      match visitRects s fuel c0 (splitRects sp.direction rect).1,
            visitRects s fuel c1 (splitRects sp.direction rect).2 with
      | some l0, some l1 => some (l0 ++ l1)
      | _, _ => none

/-- A list of (id, rectangle) pairs partitions `R` exactly: the union of the
rectangles is `R` and the rectangles are pairwise disjoint. -/
def IsPartitionOf (l : List (ℕ × Rect)) (R : Rect) : Prop :=
  (∀ px py, R.containsPt px py ↔ ∃ e ∈ l, Rect.containsPt e.2 px py) ∧
  l.Pairwise (fun e1 e2 => ∀ px py,
    ¬ (Rect.containsPt e1.2 px py ∧ Rect.containsPt e2.2 px py))

theorem partition_glue {r0 r1 rect : Rect} {l0 l1 : List (ℕ × Rect)}
    (hA : ∀ px py, rect.containsPt px py ↔ (r0.containsPt px py ∨ r1.containsPt px py))
    (hB : ∀ px py, ¬ (r0.containsPt px py ∧ r1.containsPt px py))
    (h0 : IsPartitionOf l0 r0) (h1 : IsPartitionOf l1 r1) :
    IsPartitionOf (l0 ++ l1) rect := by
  obtain ⟨hu0, hp0⟩ := h0
  obtain ⟨hu1, hp1⟩ := h1
  constructor
  · intro px py
    rw [hA px py, hu0 px py, hu1 px py]
    constructor
    · rintro (⟨e, he, hc⟩ | ⟨e, he, hc⟩)
      · exact ⟨e, List.mem_append.2 (Or.inl he), hc⟩
      · exact ⟨e, List.mem_append.2 (Or.inr he), hc⟩
    · rintro ⟨e, he, hc⟩
      rcases List.mem_append.1 he with hm | hm
      · exact Or.inl ⟨e, hm, hc⟩
      · exact Or.inr ⟨e, hm, hc⟩
  · rw [List.pairwise_append]
    refine ⟨hp0, hp1, ?_⟩
    intro e0 he0 e1 he1 px py hc
    have hr0 : r0.containsPt px py := (hu0 px py).2 ⟨e0, he0, hc.1⟩
    have hr1 : r1.containsPt px py := (hu1 px py).2 ⟨e1, he1, hc.2⟩
    exact hB px py ⟨hr0, hr1⟩

theorem splitRects_glue (d : SplitDirection) (rect : Rect) (hval : rect.u32Valid) :
    (∀ px py, rect.containsPt px py ↔
      ((splitRects d rect).1.containsPt px py ∨ (splitRects d rect).2.containsPt px py)) ∧
    (∀ px py, ¬ ((splitRects d rect).1.containsPt px py ∧
      (splitRects d rect).2.containsPt px py)) ∧
    (splitRects d rect).1.u32Valid ∧ (splitRects d rect).2.u32Valid := by
  obtain ⟨hx, hy, hxw, hyh⟩ := hval
  cases d with
  | Horizontal =>
    have hd2 : rect.h / 2 ≤ rect.h := Nat.div_le_self _ _
    have hnw : rect.y + rect.h / 2 < u32Mod := by
      rcases Nat.eq_zero_or_pos rect.h with h0 | hp
      · omega
      · have := Nat.div_lt_self hp (by omega : 1 < 2)
        omega
    have hm : (rect.y + rect.h / 2) % u32Mod = rect.y + rect.h / 2 :=
      Nat.mod_eq_of_lt hnw
    refine ⟨?_, ?_, ?_, ?_⟩
    · intro px py
      simp only [splitRects, Rect.containsPt, hm]
      omega
    · intro px py
      simp only [splitRects, Rect.containsPt, hm]
      omega
    · simp only [splitRects, Rect.u32Valid]
      omega
    · simp only [splitRects, Rect.u32Valid, hm]
      omega
  | Vertical =>
    have hd2 : rect.w / 2 ≤ rect.w := Nat.div_le_self _ _
    have hnw : rect.x + rect.w / 2 < u32Mod := by
      rcases Nat.eq_zero_or_pos rect.w with h0 | hp
      · omega
      · have := Nat.div_lt_self hp (by omega : 1 < 2)
        omega
    have hm : (rect.x + rect.w / 2) % u32Mod = rect.x + rect.w / 2 :=
      Nat.mod_eq_of_lt hnw
    refine ⟨?_, ?_, ?_, ?_⟩
    · intro px py
      simp only [splitRects, Rect.containsPt, hm]
      omega
    · intro px py
      simp only [splitRects, Rect.containsPt, hm]
      omega
    · simp only [splitRects, Rect.u32Valid]
      omega
    · simp only [splitRects, Rect.u32Valid, hm]
      omega

/-- Under the invariant, `visitRects` with enough fuel succeeds and the
delivered leaf rectangles partition the input rectangle exactly, provided
the input rectangle does not overflow `u32`. -/
theorem visitRects_partition {s : ViewportDB} (inv : SInv s) :
    ∀ (fuel n : ℕ) (rect : Rect), (∃ nd, AList.lookup n s.nodes = some nd) →
      s.highest_id < fuel + n → rect.u32Valid →
      ∃ l, visitRects s fuel n rect = some l ∧ IsPartitionOf l rect := by
  intro fuel
  induction fuel with
  | zero =>
    intro n rect ⟨nd, hn⟩ hfuel hval
    exact absurd (inv.hi_bound _ _ hn) (by omega)
  | succ fuel ih =>
    intro n rect ⟨nd, hn⟩ hfuel hval
    match nd, hn with
    | ViewportNode.Whole p i, hn =>
      refine ⟨[(n, rect)], ?_, ?_, ?_⟩
      · simp only [visitRects, hn]
      · intro px py
        simp
      · simp
    | ViewportNode.Split p sp (c0, c1), hn =>
      obtain ⟨hlt0, hlt1, hne01, ⟨nd0, h0, -⟩, ⟨nd1, h1, -⟩⟩ := inv.child_link _ _ _ _ _ hn
      obtain ⟨hA, hB, hv0, hv1⟩ := splitRects_glue sp.direction rect hval
      obtain ⟨l0, ht0, hpa0⟩ := ih c0 (splitRects sp.direction rect).1 ⟨nd0, h0⟩ (by omega) hv0
      obtain ⟨l1, ht1, hpa1⟩ := ih c1 (splitRects sp.direction rect).2 ⟨nd1, h1⟩ (by omega) hv1
      refine ⟨l0 ++ l1, ?_, ?_⟩
      · simp only [visitRects, hn, ht0, ht1]
      · exact partition_glue hA hB hpa0 hpa1

instance (r : Rect) (px py : ℕ) : Decidable (r.containsPt px py) := by
  unfold Rect.containsPt
  infer_instance

/-- The hit-test traversal of `on_mouse_motion`: `visit` running the
`ViewportPicker` visitor.  `accept_leaf_viewport` records the leaf whose
rectangle contains the pointer; `accept_split_viewport` is `unimplemented!()`,
so the traversal traps (`none`) the moment any Split node is visited —
`visit_viewport` invokes it before recursing into the children. -/
def pickVisit (s : ViewportDB) (px py : ℕ) : ℕ → ℕ → Rect → Option ℕ → Option (Option ℕ)
  | 0, _, _, _ => none
  | _ + 1, n, rect, found =>
    match AList.lookup n s.nodes with
    | none => none
    | some (ViewportNode.Split _ _ _) => none
    | some (ViewportNode.Whole _ _) =>
      some (if rect.containsPt px py then some n else found)

/-- The whole hit-test: visit from the root with no leaf found yet. -/
def viewportPick (s : ViewportDB) (px py : ℕ) (rect : Rect) : Option (Option ℕ) :=
  pickVisit s px py (s.highest_id + 1) s.root rect none

/-- A `ViewportVisitor` as a pair of state-transforming functions.  Matching
the borrow structure of the source: `acceptLeaf` receives the leaf's info by
mutable reference into the map, so it returns the (possibly mutated) info,
which is written back; `acceptSplit` receives
`distance_from_left_or_bottom_px` by mutable reference to a local, so it
returns the (possibly mutated) distance, which the caller discards
(the source's FIXME: mutations are not taken into account). -/
structure VisitorFns (σ : Type) where
  acceptLeaf : σ → ℕ → Rect → ViewportInfo → Option ℕ → ℕ → σ × ViewportInfo
  acceptSplit : σ → ℕ → Rect → SplitDirection → ℕ → Option ℕ → ℕ → σ × ℕ

/-- The `distance_from_left_or_bottom_px` computed for a Split: the second
child's offset coordinate. -/
def splitDistance (d : SplitDirection) (rect : Rect) : ℕ :=
  match d with
  | SplitDirection.Horizontal => (splitRects d rect).2.y
  | SplitDirection.Vertical => (splitRects d rect).2.x

/-- `ViewportDB::visit_viewport` for an arbitrary visitor, threading the
`ViewportDB` (whose leaf infos the visitor can mutate) and the visitor
state.  The distance returned by `acceptSplit` is discarded, and the child
rectangles come from `splitRects` on the stored split alone. -/
def visitViewport {σ : Type} (V : VisitorFns σ) (border_px : ℕ) :
    ℕ → ViewportDB → ℕ → Rect → σ → Option (ViewportDB × σ)
  | 0, _, _, _, _ => none
  | fuel + 1, s, id, rect, vs =>
    match AList.lookup id s.nodes with
    | none => none
    | some (ViewportNode.Whole parent info) =>
      let bp := if parent.isSome then border_px else 0
      let r := V.acceptLeaf vs id rect info parent bp
      some ({ s with nodes := AList.insert id (ViewportNode.Whole parent r.2) s.nodes }, r.1)
    | some (ViewportNode.Split parent sp (c0, c1)) =>
      let r := V.acceptSplit vs id rect sp.direction (splitDistance sp.direction rect)
        parent border_px
      match visitViewport V border_px fuel s c0 (splitRects sp.direction rect).1 r.1 with
      | none => none
      | some (s1, vs1) =>
        match visitViewport V border_px fuel s1 c1 (splitRects sp.direction rect).2 vs1 with
        | none => none
        | some (s2, vs2) => some (s2, vs2)

/-- `ViewportDB::visit`: start at the root with the configured border width. -/
def ViewportDB.visit {σ : Type} (V : VisitorFns σ) (s : ViewportDB) (rect : Rect) (vs : σ) :
    Option (ViewportDB × σ) :=
  visitViewport V s.border_px (s.highest_id + 1) s s.root rect vs

/-- Structural agreement after a traversal: every scalar field is unchanged,
the set of allocated IDs is unchanged, every Split node (parent, spec and
children included) is unchanged, and every Leaf keeps its parent (only its
info may differ). -/
def StructPres (s s' : ViewportDB) : Prop :=
  s'.root = s.root ∧ s'.focused = s.focused ∧ s'.hovered = s.hovered ∧
  s'.highest_id = s.highest_id ∧ s'.border_px = s.border_px ∧
  s'.border_color = s.border_color ∧
  (∀ n, (AList.lookup n s'.nodes).isSome = (AList.lookup n s.nodes).isSome) ∧
  (∀ n p sp c, AList.lookup n s'.nodes = some (ViewportNode.Split p sp c) ↔
    AList.lookup n s.nodes = some (ViewportNode.Split p sp c)) ∧
  (∀ n p i, AList.lookup n s.nodes = some (ViewportNode.Whole p i) →
    ∃ i', AList.lookup n s'.nodes = some (ViewportNode.Whole p i'))

theorem structPres_refl (s : ViewportDB) : StructPres s s :=
  ⟨rfl, rfl, rfl, rfl, rfl, rfl, fun _ => rfl, fun _ _ _ _ => Iff.rfl,
    fun _ _p i h => ⟨i, h⟩⟩

theorem structPres_trans {s s1 s2 : ViewportDB}
    (h1 : StructPres s s1) (h2 : StructPres s1 s2) : StructPres s s2 := by
  obtain ⟨a1, b1, c1, d1, e1, f1, g1, i1, j1⟩ := h1
  obtain ⟨a2, b2, c2, d2, e2, f2, g2, i2, j2⟩ := h2
  refine ⟨a2.trans a1, b2.trans b1, c2.trans c1, d2.trans d1, e2.trans e1, f2.trans f1,
    fun n => (g2 n).trans (g1 n), fun n p sp c => (i2 n p sp c).trans (i1 n p sp c), ?_⟩
  intro n p i h
  obtain ⟨i', h'⟩ := j1 n p i h
  exact j2 n p i' h'

theorem visitViewport_structPres {σ : Type} (V : VisitorFns σ) (bp : ℕ) :
    ∀ (fuel : ℕ) (s : ViewportDB) (id : ℕ) (rect : Rect) (vs : σ)
      (s' : ViewportDB) (vs' : σ),
      visitViewport V bp fuel s id rect vs = some (s', vs') → StructPres s s' := by
  intro fuel
  induction fuel with
  | zero =>
    intro s id rect vs s' vs' h
    exact absurd h (by simp [visitViewport])
  | succ fuel ih =>
    intro s id rect vs s' vs' h
    rw [visitViewport] at h
    cases hn : AList.lookup id s.nodes with
    | none => rw [hn] at h; exact absurd h (by simp)
    | some nd =>
      rw [hn] at h
      match nd, hn with
      | ViewportNode.Whole parent info, hn =>
        simp only at h
        have hp := Prod.mk.injEq .. ▸ Option.some.inj h
        have hs' : s' = { s with nodes := AList.insert id (ViewportNode.Whole parent
            (V.acceptLeaf vs id rect info parent
              (if parent.isSome then bp else 0)).2) s.nodes } := by
          have := congrArg Prod.fst (Option.some.inj h)
          exact this.symm
        subst hs'
        refine ⟨rfl, rfl, rfl, rfl, rfl, rfl, ?_, ?_, ?_⟩ <;> dsimp only
        · intro n
          rw [lookup_ins]
          by_cases hni : n = id
          · subst hni; rw [if_pos rfl, hn]; rfl
          · rw [if_neg hni]
        · intro n p sp c
          rw [lookup_ins]
          by_cases hni : n = id
          · subst hni
            rw [if_pos rfl, hn]
            constructor
            · intro hh; exact absurd (Option.some.inj hh) (by simp)
            · intro hh; exact absurd (Option.some.inj hh) (by simp)
          · rw [if_neg hni]
        · intro n p i hw
          rw [lookup_ins]
          by_cases hni : n = id
          · subst hni
            rw [if_pos rfl]
            have := Option.some.inj (hn.symm.trans hw)
            have hpp : parent = p := by injection this
            exact ⟨_, by rw [hpp]⟩
          · rw [if_neg hni]
            exact ⟨i, hw⟩
      | ViewportNode.Split parent sp (c0, c1), hn =>
        simp only at h
        cases h1 : visitViewport V bp fuel s c0 (splitRects sp.direction rect).1
            (V.acceptSplit vs id rect sp.direction (splitDistance sp.direction rect)
              parent bp).1 with
        | none => rw [h1] at h; exact absurd h (by simp)
        | some r1 =>
          obtain ⟨s1, vs1⟩ := r1
          rw [h1] at h
          simp only at h
          cases h2 : visitViewport V bp fuel s1 c1 (splitRects sp.direction rect).2 vs1 with
          | none =>
            rw [h2] at h
            exact absurd h (by simp)
          | some r2 =>
            obtain ⟨s2, vs2⟩ := r2
            rw [h2] at h
            simp only at h
            have hs2 : s2 = s' := (Prod.mk.injEq .. ▸ Option.some.inj h).1
            have ha := ih s c0 (splitRects sp.direction rect).1 _ s1 vs1 h1
            have hb := ih s1 c1 (splitRects sp.direction rect).2 vs1 s2 vs2 h2
            rw [hs2] at hb
            exact structPres_trans ha hb

/-- C10: `visit` never changes the structural state of the `ViewportDB`: for
every visitor, tree and rectangle, if the traversal returns, then the set of
allocated node IDs, every parent/children link, every stored Split spec,
`root`, `focused` and `hovered` are all unchanged; in particular whatever the
visitor writes through the mutable distance reference is discarded — only
the leaf infos handed out by reference may change. -/
theorem c10_visit_structure {σ : Type} (V : VisitorFns σ) (s : ViewportDB) (rect : Rect)
    (vs : σ) (s' : ViewportDB) (vs' : σ)
    (h : ViewportDB.visit V s rect vs = some (s', vs')) : StructPres s s' :=
  visitViewport_structPres V s.border_px (s.highest_id + 1) s s.root rect vs s' vs' h

/-- A concrete visitor that returns its inputs unchanged, for the witness. -/
def idVisitor : VisitorFns Unit where
  acceptLeaf := fun _ _ _ info _ _ => ((), info)
  acceptSplit := fun _ _ _ _ dist _ _ => ((), dist)

/-- Witness for C10 at the fresh state with the identity visitor. -/
theorem c10_visit_structure_witness :
    StructPres ViewportDB.new
      { ViewportDB.new with
        nodes := AList.insert 0 (ViewportNode.Whole none ViewportInfo.default)
          ViewportDB.new.nodes } :=
  c10_visit_structure idVisitor ViewportDB.new ⟨0, 0, 4, 4⟩ () _ () (by rfl)

/-- Result of an asset-load future (`ReadFile` then decode): success carries
the decoded image (opaque payload), the two error constructors are the outer
I/O error and the inner decode error of
`io::Result<img::Result<(Metadata, AnyImage)>>`. -/
inductive LoadResult where
  | success (img : ℕ)
  | ioError
  | decodeError
  deriving DecidableEq, Repr

def LoadResult.isSuccess : LoadResult → Bool
  | .success _ => true
  | _ => false

def LoadResult.img : LoadResult → ℕ
  | .success im => im
  | _ => 0

/-- `CubemapFace` as used by gameplay.rs. -/
inductive CubemapFace where
  | PositiveX
  | NegativeX
  | PositiveY
  | NegativeY
  | PositiveZ
  | NegativeZ
  deriving DecidableEq, Repr

/-- Destination of a `CubemapFaceRequest`: array ID, cubemap index and face. -/
structure CubemapDest where
  array_id : ℕ
  cubemap_index : ℕ
  face : CubemapFace
  deriving DecidableEq, Repr

/-- Destination of a `Texture2DRequest`: array ID and slot. -/
structure Texture2DDest where
  array_id : ℕ
  slot : ℕ
  deriving DecidableEq, Repr

/-- A pending asset request (`CubemapFaceRequest` / `Texture2DRequest`,
which differ only in their destination payload `δ`).  The future is modelled
by the frame at which it completes (`is_complete()` holds from then on)
together with its result; `path` is carried but used only for logging. -/
structure AssetRequest (δ : Type) where
  completeAt : ℕ
  result : LoadResult
  path : String
  dest : δ
  deriving DecidableEq, Repr

/-- A recorded GPU sub-image upload (`cubemap_array_sub_image_2d` /
`texture2d_array_sub_image_2d`): the destination from the request plus the
decoded image. -/
structure Upload (δ : Type) where
  dest : δ
  img : ℕ
  deriving DecidableEq, Repr

def AssetRequest.isComplete {δ : Type} (t : ℕ) (r : AssetRequest δ) : Bool :=
  decide (r.completeAt ≤ t)

/-- One call of the per-frame pump (`pump_cubemap_faces` /
`pump_texture2ds`) at frame `t`: repeatedly scan the pending list in order
for the first complete request; if none, stop; otherwise remove it, take its
result, and on success record the sub-image upload built from the request's
recorded destination, then restart the scan.  Any complete request whose
taken result is an error hits the `unimplemented!{}` arm: `none`.  The
explicit fuel only bounds the loop; `length + 1` always suffices since each
iteration removes one request. -/
def pumpGo {δ : Type} (t : ℕ) : ℕ → List (AssetRequest δ) →
    Option (List (AssetRequest δ) × List (Upload δ))
  | 0, _ => none
  | fuel + 1, reqs =>
    match reqs.findIdx? (fun r => AssetRequest.isComplete t r) with
    | none => some (reqs, [])
    | some i =>
      match reqs[i]? with
      | none => none
      | some r =>
        match r.result with
        | LoadResult.success im =>
          match pumpGo t fuel (reqs.eraseIdx i) with
          | none => none
          | some (rem, ups) => some (rem, Upload.mk r.dest im :: ups)
        | _ => none

def pumpRequests {δ : Type} (t : ℕ) (reqs : List (AssetRequest δ)) :
    Option (List (AssetRequest δ) × List (Upload δ)) :=
  pumpGo t (reqs.length + 1) reqs

theorem findIdx?_split {α : Type} (p : α → Bool) :
    ∀ (l : List α) (i : ℕ), l.findIdx? p = some i →
      ∃ pre x post, l = pre ++ x :: post ∧ pre.length = i ∧ p x = true ∧
        ∀ y ∈ pre, p y = false := by
  intro l
  induction l with
  | nil => intro i h; simp at h
  | cons x xs ih =>
    intro i h
    rw [List.findIdx?_cons] at h
    by_cases hp : p x = true
    · rw [if_pos hp] at h
      refine ⟨[], x, xs, by simp, by simpa using (Option.some.inj h), hp, by simp⟩
    · rw [if_neg hp, List.findIdx?_succ] at h
      obtain ⟨j, hj, hji⟩ := Option.map_eq_some'.1 h
      obtain ⟨pre, y, post, hl, hlen, hpy, hpre⟩ := ih j hj
      refine ⟨x :: pre, y, post, by rw [hl]; rfl, by simp [hlen, hji], hpy, ?_⟩
      intro z hz
      rcases List.mem_cons.1 hz with rfl | hz
      · exact Bool.not_eq_true _ ▸ hp
      · exact hpre _ hz

theorem eraseIdx_append_length {α : Type} :
    ∀ (pre : List α) (x : α) (post : List α),
      (pre ++ x :: post).eraseIdx pre.length = pre ++ post := by
  intro pre
  induction pre with
  | nil => intro x post; rfl
  | cons y ys ih =>
    intro x post
    show (y :: (ys ++ x :: post)).eraseIdx (ys.length + 1) = y :: (ys ++ post)
    rw [List.eraseIdx_cons_succ, ih]

/-- With enough fuel and all results successful, one pump call removes
exactly the complete requests (in order) and uploads each to its recorded
destination, leaving exactly the incomplete ones (in order). -/
theorem pumpGo_char {δ : Type} (t : ℕ) :
    ∀ (fuel : ℕ) (reqs : List (AssetRequest δ)), reqs.length < fuel →
      (∀ r ∈ reqs, r.result.isSuccess = true) →
      pumpGo t fuel reqs = some
        (reqs.filter (fun r => ! AssetRequest.isComplete t r),
         (reqs.filter (fun r => AssetRequest.isComplete t r)).map
           (fun r => Upload.mk r.dest r.result.img)) := by
  intro fuel
  induction fuel with
  | zero => intro reqs h; exact absurd h (by omega)
  | succ fuel ih =>
    intro reqs hlen hs
    cases hfind : reqs.findIdx? (fun r => AssetRequest.isComplete t r) with
    | none =>
      have hall := List.findIdx?_eq_none_iff.1 hfind
      have h1 : reqs.filter (fun r => ! AssetRequest.isComplete t r) = reqs :=
        List.filter_eq_self.2 (fun r hr => by rw [hall r hr]; rfl)
      have h2 : reqs.filter (fun r => AssetRequest.isComplete t r) = [] :=
        List.filter_eq_nil_iff.2 (fun r hr => by rw [hall r hr]; simp)
      rw [pumpGo, hfind, h1, h2]
      rfl
    | some i =>
      obtain ⟨pre, r, post, hl, hlen', hpr, hpre⟩ := findIdx?_split _ reqs i hfind
      subst hl
      subst hlen'
      have hget : (pre ++ r :: post)[pre.length]? = some r := by
        rw [List.getElem?_append_right (le_refl _)]
        simp
      have hrs : r.result.isSuccess = true := hs r (by simp)
      cases hres : r.result with
      | ioError => rw [hres] at hrs; simp [LoadResult.isSuccess] at hrs
      | decodeError => rw [hres] at hrs; simp [LoadResult.isSuccess] at hrs
      | success im =>
        have hlen2 : (pre ++ post).length < fuel := by
          simp only [List.length_append, List.length_cons] at hlen ⊢
          omega
        have hs2 : ∀ x ∈ pre ++ post, x.result.isSuccess = true := by
          intro x hx
          rcases List.mem_append.1 hx with hx | hx
          · exact hs x (by simp [hx])
          · exact hs x (by simp [hx])
        have hrec := ih (pre ++ post) hlen2 hs2
        have hfpre_inc : pre.filter (fun r => ! AssetRequest.isComplete t r) = pre :=
          List.filter_eq_self.2 (fun x hx => by rw [hpre x hx]; rfl)
        have hfpre_c : pre.filter (fun r => AssetRequest.isComplete t r) = [] :=
          List.filter_eq_nil_iff.2 (fun x hx => by rw [hpre x hx]; simp)
        simp only [pumpGo, hfind, hget, hres, eraseIdx_append_length, hrec,
          List.filter_append, List.filter_cons, hpr, hfpre_inc, hfpre_c,
          Bool.not_true, ite_true, ite_false, Bool.false_eq_true, List.map_append,
          List.map_cons, List.nil_append, LoadResult.img]

/-- If any pending request is complete with a failed result, the pump traps:
it keeps integrating successful complete requests until the failing one is
the first complete request, whose taken result hits the unimplemented arm. -/
theorem pumpGo_error {δ : Type} (t : ℕ) :
    ∀ (fuel : ℕ) (reqs : List (AssetRequest δ)), reqs.length < fuel →
      (∃ r ∈ reqs, AssetRequest.isComplete t r = true ∧ r.result.isSuccess = false) →
      pumpGo t fuel reqs = none := by
  intro fuel
  induction fuel with
  | zero => intro reqs h; exact absurd h (by omega)
  | succ fuel ih =>
    intro reqs hlen ⟨rbad, hmem, hcomp, hfail⟩
    cases hfind : reqs.findIdx? (fun r => AssetRequest.isComplete t r) with
    | none =>
      have hall := List.findIdx?_eq_none_iff.1 hfind
      rw [hall rbad hmem] at hcomp
      exact absurd hcomp (by simp)
    | some i =>
      obtain ⟨pre, r, post, hl, hlen', hpr, hpre⟩ := findIdx?_split _ reqs i hfind
      subst hl
      subst hlen'
      have hget : (pre ++ r :: post)[pre.length]? = some r := by
        rw [List.getElem?_append_right (le_refl _)]
        simp
      cases hres : r.result with
      | ioError => simp only [pumpGo, hfind, hget, hres]
      | decodeError => simp only [pumpGo, hfind, hget, hres]
      | success im =>
        have hne : rbad ≠ r := by
          intro hh
          rw [hh, hres] at hfail
          simp [LoadResult.isSuccess] at hfail
        have hmem2 : rbad ∈ pre ++ post := by
          rcases List.mem_append.1 hmem with hx | hx
          · exact List.mem_append.2 (Or.inl hx)
          · rcases List.mem_cons.1 hx with hh | hx
            · exact absurd hh hne
            · exact List.mem_append.2 (Or.inr hx)
        have hlen2 : (pre ++ post).length < fuel := by
          simp only [List.length_append, List.length_cons] at hlen ⊢
          omega
        have hrec := ih (pre ++ post) hlen2 ⟨rbad, hmem2, hcomp, hfail⟩
        simp only [pumpGo, hfind, hget, hres, eraseIdx_append_length, hrec]

/-- `Gameplay` from gameplay.rs: the two pending request vectors. -/
structure Gameplay where
  cubemap_face_requests : List (AssetRequest CubemapDest)
  texture2d_requests : List (AssetRequest Texture2DDest)

/-- `Gameplay::draw` (the per-frame pump entry point): pump the cubemap-face
requests, then the texture-2D requests; returns the new pending vectors and
the recorded GPU sub-image uploads of the frame. -/
def Gameplay.draw (t : ℕ) (g : Gameplay) :
    Option (Gameplay × List (Upload CubemapDest) × List (Upload Texture2DDest)) :=
  match pumpRequests t g.cubemap_face_requests with
  | none => none
  | some (cr, cu) =>
    match pumpRequests t g.texture2d_requests with
    | none => none
    | some (tr, tu) => some (Gameplay.mk cr tr, cu, tu)

/-- Run `draw` over a sequence of frames, accumulating the uploads. -/
def pumpFrames : List ℕ → Gameplay →
    Option (Gameplay × List (Upload CubemapDest) × List (Upload Texture2DDest))
  | [], g => some (g, [], [])
  | t :: ts, g =>
    match Gameplay.draw t g with
    | none => none
    | some (g1, cu, tu) =>
      match pumpFrames ts g1 with
      | none => none
      | some (g2, cus, tus) => some (g2, cu ++ cus, tu ++ tus)

theorem filter_or_perm {α : Type} (p q : α → Bool) :
    ∀ l : List α, (l.filter (fun a => p a || q a)).Perm
      (l.filter p ++ (l.filter (fun a => ! p a)).filter q) := by
  intro l
  induction l with
  | nil => simp
  | cons x l ih =>
    by_cases hp : p x = true
    · simp only [List.filter_cons, hp, Bool.true_or, ite_true, Bool.not_true,
        Bool.false_eq_true, ite_false]
      exact List.Perm.cons x ih
    · have hp' : p x = false := by simpa using hp
      by_cases hq : q x = true
      · simp only [List.filter_cons, hp', hq, Bool.false_or, ite_true, Bool.not_false,
          Bool.false_eq_true, ite_false]
        exact (List.Perm.cons x ih).trans List.perm_middle.symm
      · have hq' : q x = false := by simpa using hq
        simp only [List.filter_cons, hp', hq', Bool.false_or, Bool.not_false, ite_true,
          Bool.false_eq_true, ite_false]
        exact ih

theorem pumpRequests_char {δ : Type} (t : ℕ) (reqs : List (AssetRequest δ))
    (hs : ∀ r ∈ reqs, r.result.isSuccess = true) :
    pumpRequests t reqs = some
      (reqs.filter (fun r => ! AssetRequest.isComplete t r),
       (reqs.filter (fun r => AssetRequest.isComplete t r)).map
         (fun r => Upload.mk r.dest r.result.img)) :=
  pumpGo_char t (reqs.length + 1) reqs (by omega) hs

theorem pumpFrames_char :
    ∀ (ts : List ℕ) (g : Gameplay),
      (∀ r ∈ g.cubemap_face_requests, r.result.isSuccess = true) →
      (∀ r ∈ g.texture2d_requests, r.result.isSuccess = true) →
      ∃ cu tu,
        pumpFrames ts g = some
          (Gameplay.mk
            (g.cubemap_face_requests.filter
              (fun r => ts.all (fun u => ! AssetRequest.isComplete u r)))
            (g.texture2d_requests.filter
              (fun r => ts.all (fun u => ! AssetRequest.isComplete u r))), cu, tu) ∧
        cu.Perm ((g.cubemap_face_requests.filter
            (fun r => ts.any (fun u => AssetRequest.isComplete u r))).map
          (fun r => Upload.mk r.dest r.result.img)) ∧
        tu.Perm ((g.texture2d_requests.filter
            (fun r => ts.any (fun u => AssetRequest.isComplete u r))).map
          (fun r => Upload.mk r.dest r.result.img)) := by
  intro ts
  induction ts with
  | nil =>
    intro g hcs hts
    refine ⟨[], [], ?_, by simp, by simp⟩
    simp only [pumpFrames, List.all_nil, List.filter_true]
  | cons t ts ih =>
    intro g hcs hts
    have hdrawC := pumpRequests_char t g.cubemap_face_requests hcs
    have hdrawT := pumpRequests_char t g.texture2d_requests hts
    obtain ⟨cu1, tu1, hrec, hcperm, htperm⟩ := ih
      (Gameplay.mk
        (g.cubemap_face_requests.filter (fun r => ! AssetRequest.isComplete t r))
        (g.texture2d_requests.filter (fun r => ! AssetRequest.isComplete t r)))
      (fun r hr => hcs r (List.mem_of_mem_filter hr))
      (fun r hr => hts r (List.mem_of_mem_filter hr))
    refine ⟨(g.cubemap_face_requests.filter (fun r => AssetRequest.isComplete t r)).map
        (fun r => Upload.mk r.dest r.result.img) ++ cu1,
      (g.texture2d_requests.filter (fun r => AssetRequest.isComplete t r)).map
        (fun r => Upload.mk r.dest r.result.img) ++ tu1, ?_, ?_, ?_⟩
    · have hfc : (g.cubemap_face_requests.filter
          (fun r => ! AssetRequest.isComplete t r)).filter
            (fun r => ts.all (fun u => ! AssetRequest.isComplete u r)) =
          g.cubemap_face_requests.filter
            (fun r => (t :: ts).all (fun u => ! AssetRequest.isComplete u r)) := by
        rw [List.filter_filter]
        exact List.filter_congr (fun a _ => by simp [List.all_cons, Bool.and_comm])
      have hft : (g.texture2d_requests.filter
          (fun r => ! AssetRequest.isComplete t r)).filter
            (fun r => ts.all (fun u => ! AssetRequest.isComplete u r)) =
          g.texture2d_requests.filter
            (fun r => (t :: ts).all (fun u => ! AssetRequest.isComplete u r)) := by
        rw [List.filter_filter]
        exact List.filter_congr (fun a _ => by simp [List.all_cons, Bool.and_comm])
      simp only [pumpFrames, Gameplay.draw, hdrawC, hdrawT, hrec, hfc, hft]
    · have heq : g.cubemap_face_requests.filter
          (fun r => (t :: ts).any (fun u => AssetRequest.isComplete u r)) =
          g.cubemap_face_requests.filter
            (fun r => AssetRequest.isComplete t r ||
              ts.any (fun u => AssetRequest.isComplete u r)) :=
        List.filter_congr (fun a _ => by simp [List.any_cons])
      have hsplit := (filter_or_perm (fun r => AssetRequest.isComplete t r)
        (fun r => ts.any (fun u => AssetRequest.isComplete u r)) g.cubemap_face_requests)
      refine (List.Perm.append_left _ hcperm).trans ?_
      rw [← List.map_append]
      refine (List.Perm.map _ hsplit.symm).trans ?_
      rw [heq]
    · have heq : g.texture2d_requests.filter
          (fun r => (t :: ts).any (fun u => AssetRequest.isComplete u r)) =
          g.texture2d_requests.filter
            (fun r => AssetRequest.isComplete t r ||
              ts.any (fun u => AssetRequest.isComplete u r)) :=
        List.filter_congr (fun a _ => by simp [List.any_cons])
      have hsplit := (filter_or_perm (fun r => AssetRequest.isComplete t r)
        (fun r => ts.any (fun u => AssetRequest.isComplete u r)) g.texture2d_requests)
      refine (List.Perm.append_left _ htperm).trans ?_
      rw [← List.map_append]
      refine (List.Perm.map _ hsplit.symm).trans ?_
      rw [heq]

/-- C6: if all N scheduled requests (cubemap-face and texture-2D) eventually
complete with success, then after enough per-frame pump calls (any frame
sequence containing a frame at which every request is complete) both pending
vectors are empty and exactly N sub-image uploads have been performed, each
targeting exactly the destination (array ID and sub-resource) recorded in
its originating request. -/
theorem c6_pipeline_completion (g : Gameplay) (ts : List ℕ)
    (hcs : ∀ r ∈ g.cubemap_face_requests, r.result.isSuccess = true)
    (hts : ∀ r ∈ g.texture2d_requests, r.result.isSuccess = true)
    (hdone : ∃ t ∈ ts, (∀ r ∈ g.cubemap_face_requests, r.completeAt ≤ t) ∧
      (∀ r ∈ g.texture2d_requests, r.completeAt ≤ t)) :
    ∃ g' cu tu, pumpFrames ts g = some (g', cu, tu) ∧
      g'.cubemap_face_requests = [] ∧ g'.texture2d_requests = [] ∧
      cu.Perm (g.cubemap_face_requests.map (fun r => Upload.mk r.dest r.result.img)) ∧
      tu.Perm (g.texture2d_requests.map (fun r => Upload.mk r.dest r.result.img)) := by
  obtain ⟨t0, ht0, hcall, htall⟩ := hdone
  obtain ⟨cu, tu, hpf, hcperm, htperm⟩ := pumpFrames_char ts g hcs hts
  have hcnil : g.cubemap_face_requests.filter
      (fun r => ts.all (fun u => ! AssetRequest.isComplete u r)) = [] := by
    apply List.filter_eq_nil_iff.2
    intro r hr hall
    have h2 := List.all_eq_true.1 hall t0 ht0
    rw [AssetRequest.isComplete] at h2
    simp [hcall r hr] at h2
  have htnil : g.texture2d_requests.filter
      (fun r => ts.all (fun u => ! AssetRequest.isComplete u r)) = [] := by
    apply List.filter_eq_nil_iff.2
    intro r hr hall
    have h2 := List.all_eq_true.1 hall t0 ht0
    rw [AssetRequest.isComplete] at h2
    simp [htall r hr] at h2
  have hcfull : g.cubemap_face_requests.filter
      (fun r => ts.any (fun u => AssetRequest.isComplete u r)) =
      g.cubemap_face_requests :=
    List.filter_eq_self.2 (fun r hr => List.any_eq_true.2
      ⟨t0, ht0, by rw [AssetRequest.isComplete]; simp [hcall r hr]⟩)
  have htfull : g.texture2d_requests.filter
      (fun r => ts.any (fun u => AssetRequest.isComplete u r)) =
      g.texture2d_requests :=
    List.filter_eq_self.2 (fun r hr => List.any_eq_true.2
      ⟨t0, ht0, by rw [AssetRequest.isComplete]; simp [htall r hr]⟩)
  refine ⟨_, cu, tu, hpf, hcnil, htnil, ?_, ?_⟩
  · rw [hcfull] at hcperm; exact hcperm
  · rw [htfull] at htperm; exact htperm

/-- Witness for C6: one cubemap-face request and one texture request, both
eventually successful, pumped over frames 3 and 6. -/
theorem c6_pipeline_completion_witness :
    ∃ g' cu tu,
      pumpFrames [3, 6]
        (Gameplay.mk
          [AssetRequest.mk 2 (LoadResult.success 7) "grouse_ft.jpg"
            (CubemapDest.mk 1 0 CubemapFace.PositiveX)]
          [AssetRequest.mk 5 (LoadResult.success 9) "maze.png" (Texture2DDest.mk 2 0)]) =
        some (g', cu, tu) ∧
      g'.cubemap_face_requests = [] ∧ g'.texture2d_requests = [] ∧
      cu.Perm ([AssetRequest.mk 2 (LoadResult.success 7) "grouse_ft.jpg"
          (CubemapDest.mk 1 0 CubemapFace.PositiveX)].map
        (fun r => Upload.mk r.dest r.result.img)) ∧
      tu.Perm ([AssetRequest.mk 5 (LoadResult.success 9) "maze.png"
          (Texture2DDest.mk 2 0)].map (fun r => Upload.mk r.dest r.result.img)) :=
  c6_pipeline_completion
    (Gameplay.mk
      [AssetRequest.mk 2 (LoadResult.success 7) "grouse_ft.jpg"
        (CubemapDest.mk 1 0 CubemapFace.PositiveX)]
      [AssetRequest.mk 5 (LoadResult.success 9) "maze.png" (Texture2DDest.mk 2 0)])
    [3, 6] (by decide) (by decide) (by decide)

/-- C7: when any pending request's future has completed with an I/O error or
a decode error, the per-frame pump traps (the `unimplemented!{}` arm) instead
of recovering: it returns no new state and the failing request never
produces a GPU upload. -/
theorem c7_load_error_traps {δ : Type} (t : ℕ) (reqs : List (AssetRequest δ))
    (h : ∃ r ∈ reqs, AssetRequest.isComplete t r = true ∧ r.result.isSuccess = false) :
    pumpRequests t reqs = none :=
  pumpGo_error t (reqs.length + 1) reqs (by omega) h

/-- Witness for C7: a single complete request that failed with an I/O error. -/
theorem c7_load_error_traps_witness :
    pumpRequests 4 [AssetRequest.mk 1 LoadResult.ioError "missing.jpg"
      (CubemapDest.mk 0 0 CubemapFace.NegativeZ)] = none :=
  c7_load_error_traps 4 _ (by decide)
